import Mathlib

/-!
# Verification of the server endpoint engine

A shallow embedding of the server endpoint packet-processing engine
(fragmenter, assembler, assemblers manager, fragment manager, topology with
drop-rate-weighted Dijkstra routing, and the server ack/nack handlers),
together with proofs of the specification's testable properties.

Modelling conventions:
* machine integers (`u8`, `u64`, `usize`) are modelled as `Nat`; none of the
  verified operations can overflow their Rust width on reachable states;
* `f64` drop-rate arithmetic is modelled exactly over `ℚ` (the counters are
  integral and all operations used are field operations and comparisons);
* `HashMap` is modelled as a function into `Option`, `BinaryHeap` as a list
  with a selection of the maximal element w.r.t. the source's `Ord`;
* `Instant` time stamps are threaded as explicit `Int` parameters;
* the `while` loops of `dijkstra` are modelled with an explicit fuel
  parameter; the theorems quantify over the fuel.
-/

/-- Truncated-to-none function update, used to model in-place writes. -/
def updf {α : Type} (f : Nat → α) (k : Nat) (v : α) : Nat → α :=
  fun x => if x = k then v else f x

/-! ## wg_2024 packet data model -/

/-- `FRAGMENT_DSIZE` from the overlay crate: the fixed fragment payload size. -/
def FRAGMENT_DSIZE : Nat := 128

/-- `NodeType` from the overlay crate. -/
inductive NodeType
  | Client
  | Drone
  | Server
deriving DecidableEq

/-- `Fragment` from the overlay crate.  `data` always has length
`FRAGMENT_DSIZE` in every reachable state (the Rust field is `[u8; 128]`). -/
structure Fragment where
  fragment_index : Nat
  total_n_fragments : Nat
  length : Nat
  data : List Nat
deriving DecidableEq

/-! ## fragmenter.rs -/

/-- `AssembledResponse` (specialized_behavior.rs): response bytes plus the
destination node. -/
structure AssembledResponse where
  data : List Nat
  dest : Nat
deriving DecidableEq

/-- `ToBeSentFragment` (fragment_manager.rs). -/
structure ToBeSentFragment where
  dest : Nat
  session_id : Nat
  fragment : Fragment
deriving DecidableEq

/-- `Fragmenter` (fragmenter.rs): holds the next session id. -/
structure Fragmenter where
  session_id : Nat
deriving DecidableEq

/-- `Fragmenter::new`. -/
def Fragmenter.new : Fragmenter := ⟨1⟩

/-- `Fragmenter::to_fragment_vec`: splits the payload into
`FRAGMENT_DSIZE`-sized chunks, zero-padding the last chunk, stamps every
record with the current session id, and increments the session counter.
Returns the produced records together with the updated fragmenter state. -/
def Fragmenter.to_fragment_vec (f : Fragmenter) (assembled_response : AssembledResponse) :
    List ToBeSentFragment × Fragmenter :=
  let data := assembled_response.data
  let dest := assembled_response.dest
  let total_fragments :=
    if data = [] then 0 else (data.length + FRAGMENT_DSIZE - 1) / FRAGMENT_DSIZE
  let fragments := (List.range total_fragments).map (fun i =>
    let slice := (data.drop (i * FRAGMENT_DSIZE)).take FRAGMENT_DSIZE
    { dest := dest
      session_id := f.session_id
      fragment :=
        { fragment_index := i
          total_n_fragments := total_fragments
          length := slice.length
          data := slice ++ List.replicate (FRAGMENT_DSIZE - slice.length) 0 } })
  (fragments, ⟨f.session_id + 1⟩)

/-! ## assembler.rs -/

/-- `AssemblerStatus` (assembler.rs). -/
inductive AssemblerStatus
  | Complete
  | Incomplete
deriving DecidableEq

/-- `InsertFragmentError` (assembler.rs). -/
inductive InsertFragmentError
  | CapacityDoesNotMatch
  | IndexOutOfBounds
deriving DecidableEq

/-- `RetrieveError` (assembler.rs). -/
inductive RetrieveError
  | Incomplete
  | UnknownSessionId
deriving DecidableEq

/-- `Assembler` (assembler.rs): a buffer of optional fragment payloads plus
the number of still-missing fragments. -/
structure Assembler where
  data : List (Option (List Nat))
  fragments_left : Nat
deriving DecidableEq

/-- `Assembler::new`. -/
def Assembler.new (total_fragments : Nat) : Assembler :=
  ⟨List.replicate total_fragments none, total_fragments⟩

/-- `Assembler::is_complete`. -/
def Assembler.is_complete (a : Assembler) : Prop :=
  a.fragments_left = 0

instance (a : Assembler) : Decidable a.is_complete := by
  unfold Assembler.is_complete; infer_instance

/-- `Assembler::insert_fragment`.  Returns the Rust `Result` together with
the post-state (errors leave the assembler unchanged, as in the source). -/
def Assembler.insert_fragment (a : Assembler) (fragment : Fragment) :
    Except InsertFragmentError AssemblerStatus × Assembler :=
  let index := fragment.fragment_index
  let total_fragments := fragment.total_n_fragments
  if total_fragments ≠ a.data.length then
    (.error .CapacityDoesNotMatch, a)
  else if index ≥ a.data.length then
    (.error .IndexOutOfBounds, a)
  else
    let fragments_left :=
      if a.data.getD index none = none then a.fragments_left - 1 else a.fragments_left
    let a' : Assembler := ⟨a.data.set index (some fragment.data), fragments_left⟩
    if a'.is_complete then (.ok .Complete, a') else (.ok .Incomplete, a')

/-- The concatenation loop of `Assembler::retrieve_assembled`: fails at the
first missing fragment, otherwise concatenates the stored payloads. -/
def assembleData : List (Option (List Nat)) → Except RetrieveError (List Nat)
  | [] => .ok []
  | none :: _ => .error .Incomplete
  | some d :: rest =>
    match assembleData rest with
    | .ok tail => .ok (d ++ tail)
    | .error e => .error e

/-- `Assembler::retrieve_assembled`. -/
def Assembler.retrieve_assembled (a : Assembler) : Except RetrieveError (List Nat) :=
  assembleData a.data

/-! ## assemblers_manager.rs -/

/-- `AssemblersManager` (assemblers_manager.rs): the per-session assembly
buffer, with the `HashMap` modelled as a function into `Option`. -/
structure AssemblersManager where
  assembly_buffer : Nat → Option Assembler

/-- `AssemblersManager::new`. -/
def AssemblersManager.new : AssemblersManager :=
  ⟨fun _ => none⟩

/-- `AssemblersManager::insert_fragment`: `entry(..).or_insert_with(..)`
creates (and keeps) a fresh assembler sized by the fragment's declared total
when the session is absent, then delegates to `Assembler::insert_fragment`. -/
def AssemblersManager.insert_fragment (m : AssemblersManager) (fragment : Fragment)
    (session_id : Nat) :
    Except InsertFragmentError AssemblerStatus × AssemblersManager :=
  let entry :=
    match m.assembly_buffer session_id with
    | some a => a
    | none => Assembler.new fragment.total_n_fragments
  let r := entry.insert_fragment fragment
  (r.1, ⟨updf m.assembly_buffer session_id (some r.2)⟩)

/-- `AssemblersManager::retrieve_assembled`: on a complete session the slot
is removed (before the inner retrieval runs, as in the source) and the
assembled bytes are returned; otherwise the buffer is left as is. -/
def AssemblersManager.retrieve_assembled (m : AssemblersManager) (session_id : Nat) :
    Except RetrieveError (List Nat) × AssemblersManager :=
  match m.assembly_buffer session_id with
  | some a =>
    if a.is_complete then
      (a.retrieve_assembled, ⟨updf m.assembly_buffer session_id none⟩)
    else
      (.error .Incomplete, m)
  | none => (.error .UnknownSessionId, m)

/-! ## fragment_manager.rs -/

/-- Stands for the `&str` error of `FragmentManager::insert_from_cache`. -/
inductive CacheMiss
  | NotInCache
deriving DecidableEq

/-- `FragmentManager` (fragment_manager.rs): the retransmit cache keyed by
`(session_id, fragment_index)` plus the FIFO send buffer. -/
structure FragmentManager where
  cache : Nat × Nat → Option ToBeSentFragment
  buffer : List ToBeSentFragment

/-- `FragmentManager::new`. -/
def FragmentManager.new : FragmentManager :=
  ⟨fun _ => none, []⟩

/-- Function update on the cache map. -/
def cacheUpd (c : Nat × Nat → Option ToBeSentFragment) (k : Nat × Nat)
    (v : Option ToBeSentFragment) : Nat × Nat → Option ToBeSentFragment :=
  fun x => if x = k then v else c x

/-- `FragmentManager::insert_fragment`: store in the cache and enqueue. -/
def FragmentManager.insert_fragment (fm : FragmentManager)
    (tbs : ToBeSentFragment) : FragmentManager :=
  ⟨cacheUpd fm.cache (tbs.session_id, tbs.fragment.fragment_index) (some tbs),
   fm.buffer ++ [tbs]⟩

/-- `FragmentManager::get_next`: pop the send-buffer head. -/
def FragmentManager.get_next (fm : FragmentManager) :
    Option ToBeSentFragment × FragmentManager :=
  match fm.buffer with
  | [] => (none, fm)
  | t :: rest => (some t, ⟨fm.cache, rest⟩)

/-- `FragmentManager::insert_bulk`. -/
def FragmentManager.insert_bulk (fm : FragmentManager)
    (fragments : List ToBeSentFragment) : FragmentManager :=
  fragments.foldl FragmentManager.insert_fragment fm

/-- `FragmentManager::insert_from_cache`: re-enqueue the cached record, or
fail (leaving everything unchanged) when the key is absent. -/
def FragmentManager.insert_from_cache (fm : FragmentManager) (fragment_id : Nat × Nat) :
    Except CacheMiss Unit × FragmentManager :=
  match fm.cache fragment_id with
  | none => (.error .NotInCache, fm)
  | some t => (.ok (), ⟨fm.cache, fm.buffer ++ [t]⟩)

/-- `FragmentManager::remove_from_cache`. -/
def FragmentManager.remove_from_cache (fm : FragmentManager) (fragment_id : Nat × Nat) :
    FragmentManager :=
  ⟨cacheUpd fm.cache fragment_id none, fm.buffer⟩

/-! ## topology.rs -/

/-- `NETWORK_SIZE` (topology.rs). -/
def NETWORK_SIZE : Nat := 256

/-- Per-node success/failure counters (struct `Rate`, topology.rs), with the
`f64` counters modelled over `ℚ`. -/
structure Rate where
  success : ℚ
  failure : ℚ
deriving DecidableEq

/-- `RoutingError` (topology.rs). -/
inductive RoutingError
  | NoPathFound
  | SourceIsDest
deriving DecidableEq

/-- `Topology` (topology.rs).  The 256x256 bit matrix, the `NodeType` array
and the `Rate` array are modelled as functions on `Nat`; every operation only
ever touches indices below `NETWORK_SIZE` since `NodeId` is `u8`.  The
`Instant` of `last_reset` is modelled as an `Int` timestamp. -/
structure Topology where
  node_id : Nat
  graph : Nat → Nat → Bool
  types : Nat → NodeType
  observed_trend : Nat → Rate
  last_reset : Int

/-- `ESTIMATED_UPDATE_TIME` (2 seconds), in abstract time units. -/
def ESTIMATED_UPDATE_TIME : Int := 2

/-- `Topology::new`: empty adjacency, own slot `Server`, everything else
`Drone`, Laplace-smoothed counters `{1, 1}`. -/
def Topology.new (node_id : Nat) (now : Int) : Topology :=
  { node_id := node_id
    graph := fun _ _ => false
    types := fun v => if v = node_id then NodeType.Server else NodeType.Drone
    observed_trend := fun _ => ⟨1, 1⟩
    last_reset := now - ESTIMATED_UPDATE_TIME }

/-- Symmetric adjacency update (the two `set` calls of the source). -/
def setAdj (g : Nat → Nat → Bool) (a b : Nat) (v : Bool) : Nat → Nat → Bool :=
  fun x y => if (x = a ∧ y = b) ∨ (x = b ∧ y = a) then v else g x y

/-- `Topology::insert_edge`: set adjacency both ways; record the claimed
kinds except for the engine's own slot.  The source writes `node1`'s kind
first and `node2`'s second, so on `node1.0 = node2.0` the second write
wins. -/
def Topology.insert_edge (t : Topology) (node1 node2 : Nat × NodeType) : Topology :=
  { t with
    graph := setAdj t.graph node1.1 node2.1 true
    types := fun v =>
      if v = node2.1 ∧ t.node_id ≠ node2.1 then node2.2
      else if v = node1.1 ∧ t.node_id ≠ node1.1 then node1.2
      else t.types v }

/-- `Topology::remove_edge`. -/
def Topology.remove_edge (t : Topology) (node1_id node2_id : Nat) : Topology :=
  { t with graph := setAdj t.graph node1_id node2_id false }

/-- `Topology::reset`: clear every edge, set every kind (the engine's own
slot included) to `Drone`, stamp `last_reset`. -/
def Topology.reset (t : Topology) (now : Int) : Topology :=
  { t with
    graph := fun _ _ => false
    types := fun _ => NodeType.Drone
    last_reset := now }

/-- `Topology::is_updating`. -/
def Topology.is_updating (t : Topology) (now : Int) : Prop :=
  now - t.last_reset < ESTIMATED_UPDATE_TIME

/-- `Topology::observe_success`. -/
def Topology.observe_success (t : Topology) (node : Nat) : Topology :=
  let r := t.observed_trend node
  { t with observed_trend := updf t.observed_trend node ⟨r.success + 1, r.failure⟩ }

/-- `Topology::observe_failure`. -/
def Topology.observe_failure (t : Topology) (node : Nat) : Topology :=
  let r := t.observed_trend node
  { t with observed_trend := updf t.observed_trend node ⟨r.success, r.failure + 1⟩ }

/-- `Topology::get_observed_pdr`. -/
def Topology.get_observed_pdr (t : Topology) (node_id : Nat) : ℚ :=
  let trend := t.observed_trend node_id
  if trend.success + trend.failure > 0 then
    trend.failure / (trend.success + trend.failure)
  else 0

/-! ### Dijkstra (topology.rs, `Topology::dijkstra`) -/

/-- `State` (topology.rs): a heap entry. -/
structure HState where
  pdr : ℚ
  position : Nat
deriving DecidableEq

/-- `a` pops before `b` under the source's `Ord` on `State` (`BinaryHeap`
pops the maximum; the `Ord` reverses `pdr` and tie-breaks on `position`). -/
def popsBefore (a b : HState) : Prop :=
  a.pdr < b.pdr ∨ (a.pdr = b.pdr ∧ b.position ≤ a.position)

instance (a b : HState) : Decidable (popsBefore a b) := by
  unfold popsBefore; infer_instance

/-- `BinaryHeap::pop` on the list model: select the element that pops first
(minimal `pdr`, ties broken towards the larger `position`), returning it and
the remaining entries. -/
def popBest : List HState → Option (HState × List HState)
  | [] => none
  | h :: t =>
    match popBest t with
    | none => some (h, [])
    | some (b, rest) => if popsBefore h b then some (h, t) else some (b, h :: rest)

/-- The admissibility test of the expansion loop: a neighbor is skipped
unless it is the destination or a recorded `Drone`
(`neighbor != dest_id && self.types[neighbor] != NodeType::Drone`). -/
def Topology.interiorAdmissible (t : Topology) (dest v : Nat) : Prop :=
  v = dest ∨ t.types v = NodeType.Drone

instance (t : Topology) (dest v : Nat) : Decidable (t.interiorAdmissible dest v) := by
  unfold Topology.interiorAdmissible; infer_instance

/-- One `Topology` with the mutable Dijkstra arrays and heap. -/
structure DijkstraState where
  dist : Nat → Option ℚ
  prev : Nat → Option Nat
  heap : List HState

/-- `next_pdr < dist[neighbor]`, with a missing entry standing for
`f64::INFINITY` (always improved upon). -/
def improvesDist (next : ℚ) : Option ℚ → Bool
  | some dv => decide (next < dv)
  | none => true

/-- The body of the neighbor expansion loop: skip inadmissible neighbors,
otherwise relax `dist`/`prev` and push the improved entry.  `k` is the `pdr`
of the popped entry, `u` its `position`.  A missing `dist` entry stands for
`f64::INFINITY`, which every candidate improves. -/
def relaxNeighbor (t : Topology) (dest : Nat) (k : ℚ) (u : Nat)
    (σ : DijkstraState) (v : Nat) : DijkstraState :=
  if t.interiorAdmissible dest v then
    let next := k + (1 - k) * t.get_observed_pdr v
    if improvesDist next (σ.dist v) then
      ⟨updf σ.dist v (some next), updf σ.prev v (some u), ⟨next, v⟩ :: σ.heap⟩
    else σ
  else σ

/-- The `iter_ones` neighbor list of a row of the bit matrix: the set bits in
ascending index order. -/
def neighborList (t : Topology) (u : Nat) : List Nat :=
  (List.range NETWORK_SIZE).filter (fun j => t.graph u j)

/-- The path-reconstruction loop: follow `prev` from the destination,
collecting nodes (`path.push(node); current = prev[node]`).  The Rust loop
has no fuel; on every reachable state the `prev` chain is acyclic and the
fuel `NETWORK_SIZE` below never runs out. -/
def buildPath (prev : Nat → Option Nat) : Nat → Option Nat → List Nat → List Nat
  | 0, _, acc => acc
  | _ + 1, none, acc => acc
  | fuel + 1, some node, acc => buildPath prev fuel (prev node) (acc ++ [node])

/-- `pdr > dist[position]`: the popped entry is stale.  A missing entry
stands for `f64::INFINITY`, which no finite key exceeds. -/
def staleEntry (k : ℚ) : Option ℚ → Bool
  | some d => decide (d < k)
  | none => false

/-- The main Dijkstra loop.  Pops the best entry; returns the reversed
`prev` chain when the destination pops; skips stale entries
(`pdr > dist[position]`); otherwise relaxes every admissible neighbor. -/
def dijkstraLoop (t : Topology) (dest : Nat) :
    Nat → DijkstraState → Except RoutingError (List Nat)
  | 0, _ => .error .NoPathFound
  | fuel + 1, σ =>
    match popBest σ.heap with
    | none => .error .NoPathFound
    | some (e, rest) =>
      if e.position = dest then
        .ok ((buildPath σ.prev NETWORK_SIZE (some dest) []).reverse)
      else
        if staleEntry e.pdr (σ.dist e.position) then
          dijkstraLoop t dest fuel ⟨σ.dist, σ.prev, rest⟩
        else
          dijkstraLoop t dest fuel
            ((neighborList t e.position).foldl
              (relaxNeighbor t dest e.pdr e.position) ⟨σ.dist, σ.prev, rest⟩)

/-- `Topology::dijkstra`, with explicit fuel for the main loop. -/
def Topology.dijkstra (t : Topology) (fuel : Nat) (source dest : Nat) :
    Except RoutingError (List Nat) :=
  if source = dest then .error .SourceIsDest
  else
    dijkstraLoop t dest fuel
      ⟨updf (fun _ => none) source (some 0), fun _ => none, [⟨0, source⟩]⟩

/-! ### Topology operation sequences (for the pinning claims) -/

/-- The topology-mutating operations named by the spec's pinning claim. -/
inductive TopOp
  | insert (node1 node2 : Nat × NodeType)
  | remove (a b : Nat)
  | reset (now : Int)
  | obsSuccess (n : Nat)
  | obsFailure (n : Nat)

/-- Apply one operation. -/
def applyTopOp (t : Topology) : TopOp → Topology
  | .insert n1 n2 => t.insert_edge n1 n2
  | .remove a b => t.remove_edge a b
  | .reset now => t.reset now
  | .obsSuccess n => t.observe_success n
  | .obsFailure n => t.observe_failure n

/-- Apply a sequence of operations in order. -/
def applyTopOps (ops : List TopOp) (t : Topology) : Topology :=
  ops.foldl applyTopOp t

/-- `op` is not a `reset`. -/
def TopOp.notReset : TopOp → Prop
  | .reset _ => False
  | _ => True

/-- `op` does not name node `v` in an `insert_edge`. -/
def TopOp.avoids (v : Nat) : TopOp → Prop
  | .insert n1 n2 => n1.1 ≠ v ∧ n2.1 ≠ v
  | _ => True

/-! ## server.rs (ack/nack handling and network discovery) -/

/-- `Ack` (overlay crate). -/
structure Ack where
  fragment_index : Nat
deriving DecidableEq

/-- `NackType` (overlay crate). -/
inductive NackType
  | Dropped
  | DestinationIsDrone
  | ErrorInRouting (node : Nat)
  | UnexpectedRecipient (node : Nat)
deriving DecidableEq

/-- `Nack` (overlay crate). -/
structure Nack where
  fragment_index : Nat
  nack_type : NackType
deriving DecidableEq

/-- `SourceRoutingHeader` (overlay crate). -/
structure SourceRoutingHeader where
  hop_index : Nat
  hops : List Nat
deriving DecidableEq

/-- `FloodRequest` (overlay crate), as emitted by network discovery. -/
structure FloodRequest where
  flood_id : Nat
  initiator_id : Nat
  path_trace : List (Nat × NodeType)
deriving DecidableEq

/-- The state of `Server` (server.rs) touched by the ack/nack handlers: the
topology, the fragment manager, the flood counter and the neighbor set (the
`HashMap` of send channels, modelled as the list of neighbor ids in the
source's iteration order).  Channels themselves are not modelled; emitted
flood requests are returned as explicit output. -/
structure ServerSt where
  id : Nat
  topology : Topology
  fragment_manager : FragmentManager
  flood_id : Nat
  packet_send : List Nat

/-- `Server::start_network_discovery`: reset the topology, then emit one
`FloodRequest` per neighbor, incrementing `flood_id` after each emission.
Returns the new state and the `(neighbor, request)` emissions. -/
def ServerSt.start_network_discovery (s : ServerSt) (now : Int) :
    ServerSt × List (Nat × FloodRequest) :=
  let t := s.topology.reset now
  let emit := fun (acc : Nat × List (Nat × FloodRequest)) (n : Nat) =>
    (acc.1 + 1,
     acc.2 ++ [(n, ⟨acc.1, s.id, [(s.id, NodeType.Server)]⟩)])
  let r := s.packet_send.foldl emit (s.flood_id, [])
  ({ s with topology := t, flood_id := r.1 }, r.2)

/-- `Server::handle_ack`: observe a success for the reporting hop
(`hops[0]`, when present) and drop the cache entry for
`(session_id, fragment_index)`. -/
def ServerSt.handle_ack (s : ServerSt) (ack : Ack) (session_id : Nat)
    (header : SourceRoutingHeader) : ServerSt :=
  let t :=
    match header.hops.head? with
    | some sender => s.topology.observe_success sender
    | none => s.topology
  { s with
    topology := t
    fragment_manager :=
      s.fragment_manager.remove_from_cache (session_id, ack.fragment_index) }

/-- `Server::handle_nack`: observe a failure for the reporting hop, then act
on the nack kind — `Dropped` re-enqueues from the cache; `DestinationIsDrone`
and `ErrorInRouting` start network discovery and re-enqueue;
`UnexpectedRecipient` only logs.  Returns the new state and the flood
emissions. -/
def ServerSt.handle_nack (s : ServerSt) (nack : Nack) (session_id : Nat)
    (header : SourceRoutingHeader) (now : Int) :
    ServerSt × List (Nat × FloodRequest) :=
  let t :=
    match header.hops.head? with
    | some sender => s.topology.observe_failure sender
    | none => s.topology
  let s := { s with topology := t }
  match nack.nack_type with
  | .Dropped =>
    ({ s with fragment_manager :=
        (s.fragment_manager.insert_from_cache (session_id, nack.fragment_index)).2 }, [])
  | .DestinationIsDrone =>
    let r := s.start_network_discovery now
    ({ r.1 with fragment_manager :=
        (r.1.fragment_manager.insert_from_cache (session_id, nack.fragment_index)).2 }, r.2)
  | .ErrorInRouting _ =>
    let r := s.start_network_discovery now
    ({ r.1 with fragment_manager :=
        (r.1.fragment_manager.insert_from_cache (session_id, nack.fragment_index)).2 }, r.2)
  | .UnexpectedRecipient _ => (s, [])

/-! ## Derived definitions used by the statements -/

instance : (op : TopOp) → Decidable op.notReset := fun op => by
  cases op <;> simp [TopOp.notReset] <;> infer_instance

instance (v : Nat) : (op : TopOp) → Decidable (op.avoids v) := fun op => by
  cases op <;> simp [TopOp.avoids] <;> infer_instance

/-- The number of fragments `to_fragment_vec` produces for a payload. -/
def numFragments (data : List Nat) : Nat :=
  if data = [] then 0 else (data.length + FRAGMENT_DSIZE - 1) / FRAGMENT_DSIZE

/-- Fragment a payload with a fresh fragmenter, insert every produced
fragment into an assembler sized by the fragment count, and retrieve the
assembled bytes. -/
def roundTrip (payload : List Nat) : Except RetrieveError (List Nat) :=
  let fragments := (Fragmenter.new.to_fragment_vec ⟨payload, 0⟩).1
  let assembler :=
    fragments.foldl (fun a tf => (a.insert_fragment tf.fragment).2)
      (Assembler.new fragments.length)
  assembler.retrieve_assembled

/-- The assembler's structural invariant: the `fragments_left` counter equals
the number of still-empty slots.  `Assembler::new` establishes it and
`Assembler::insert_fragment` preserves it. -/
def Assembler.wf (a : Assembler) : Prop :=
  a.fragments_left = a.data.count none

instance (a : Assembler) : Decidable a.wf := by
  unfold Assembler.wf; infer_instance

/-- Every assembler stored in the buffer satisfies its invariant. -/
def AssemblersManager.wf (m : AssemblersManager) : Prop :=
  ∀ sid a, m.assembly_buffer sid = some a → a.wf

/-! ### Path predicates for the routing claims -/

/-- Consecutive nodes of the list are adjacent in the bit-matrix graph. -/
def chainAdj (t : Topology) : List Nat → Prop
  | [] => True
  | [_] => True
  | a :: b :: l => t.graph a b = true ∧ chainAdj t (b :: l)

/-- One step of the spec's cost recursion:
`cost(prefix . v) = cost(prefix) + (1 - cost(prefix)) * p(v)`. -/
def costStep (t : Topology) (c : ℚ) (v : Nat) : ℚ :=
  c + (1 - c) * t.get_observed_pdr v

/-- Accumulated drop cost starting from `c` over the nodes `vs`. -/
def costFrom (t : Topology) (c : ℚ) (vs : List Nat) : ℚ :=
  vs.foldl (costStep t) c

/-- The accumulated drop cost of a path (its head contributes nothing). -/
def pathCost (t : Topology) (π : List Nat) : ℚ :=
  costFrom t 0 π.tail

/-- A source-to-`w` walk all of whose non-head nodes pass the expansion
loop's admissibility test for destination `dest` (the destination itself, or
a recorded `Drone`).  This is the class of walks Dijkstra explores. -/
def DWalk (t : Topology) (src dest : Nat) (π : List Nat) (w : Nat) : Prop :=
  π.head? = some src ∧ π.getLast? = some w ∧ chainAdj t π ∧
    (∀ v ∈ π.tail, t.interiorAdmissible dest v) ∧ ∀ v ∈ π, v < NETWORK_SIZE

/-- The claim's notion of a route: starts at `src`, ends at `dest`, every
interior node has recorded kind `Drone`, consecutive nodes adjacent. -/
def ValidPath (t : Topology) (src dest : Nat) (π : List Nat) : Prop :=
  π.head? = some src ∧ π.getLast? = some dest ∧ 2 ≤ π.length ∧ chainAdj t π ∧
    (∀ v ∈ π.tail.dropLast, t.types v = NodeType.Drone) ∧ ∀ v ∈ π, v < NETWORK_SIZE

/-- Per-node drop probabilities are strictly between 0 and 1; holds whenever
both counters are positive, hence on every reachable topology (they start at
1 and only ever increase). -/
def pdrBounded (t : Topology) : Prop :=
  ∀ v, 0 < (t.observed_trend v).success ∧ 0 < (t.observed_trend v).failure

/-- `some d` is strictly below the bound `b` (`none` stands for infinity). -/
def distLT (o : Option ℚ) (b : ℚ) : Prop :=
  match o with
  | some d => d < b
  | none => False

instance (o : Option ℚ) (b : ℚ) : Decidable (distLT o b) := by
  cases o <;> simp [distLT] <;> infer_instance

/-- The number of network slots whose tentative distance is strictly below
`b`: the termination measure of the `prev`-chain reconstruction. -/
def distMeasure (dist : Nat → Option ℚ) (b : ℚ) : Nat :=
  ((Finset.range NETWORK_SIZE).filter (fun w => distLT (dist w) b)).card

/-- The loop invariant of `Topology::dijkstra`, over the mutable state `σ`
and the ghost set `S` of settled nodes (nodes already expanded).  The fields
are the standard Dijkstra facts adapted to the drop-cost recursion and the
lazy-deletion heap. -/
structure DInv (t : Topology) (src dest : Nat) (S : Nat → Prop)
    (σ : DijkstraState) : Prop where
  dist_src : σ.dist src = some 0
  prev_src : σ.prev src = none
  dist_bounds : ∀ v d, σ.dist v = some d → 0 ≤ d ∧ d < 1
  prev_ok : ∀ v u, σ.prev v = some u →
    ∃ du dv, σ.dist u = some du ∧ σ.dist v = some dv ∧
      t.graph u v = true ∧ t.interiorAdmissible dest v ∧
      costStep t du v ≤ dv ∧ du < dv ∧ u < NETWORK_SIZE ∧ v < NETWORK_SIZE ∧ v ≠ src
  fin_prev : ∀ v, v ≠ src → (∃ d, σ.dist v = some d) → ∃ u, σ.prev v = some u
  entry_dist : ∀ e ∈ σ.heap, ∃ d, σ.dist e.position = some d ∧ d ≤ e.pdr
  entry_pos : ∀ e ∈ σ.heap, e.position < NETWORK_SIZE
  entry_distinct : σ.heap.Pairwise (fun a b => a.position = b.position → a.pdr ≠ b.pdr)
  frontier : ∀ v d, ¬ S v → σ.dist v = some d → (⟨d, v⟩ : HState) ∈ σ.heap
  settled_lb : ∀ x, S x → ∃ dx, σ.dist x = some dx ∧
      (∀ π, DWalk t src dest π x → dx ≤ pathCost t π) ∧
      (∀ y, t.graph x y = true → y < NETWORK_SIZE → t.interiorAdmissible dest y →
        ∃ dy, σ.dist y = some dy ∧ dy ≤ costStep t dx y)
  settled_stale : ∀ x dx, S x → σ.dist x = some dx → ∀ e ∈ σ.heap, e.position = x → dx < e.pdr
  settled_le : ∀ x dx, S x → σ.dist x = some dx → ∀ e ∈ σ.heap, dx ≤ e.pdr
  dest_free : ¬ S dest

/-- The invariant holding in the middle of the neighbor-expansion fold for
the freshly popped node `u` with key `k`: everything of `DInv` for the
settled set `S`, with `u` playing the settled role except that its
full-relaxation clause is only being established (the fold's
postcondition). -/
structure MInv (t : Topology) (src dest : Nat) (S : Nat → Prop)
    (u : Nat) (k : ℚ) (σ : DijkstraState) : Prop where
  dist_src : σ.dist src = some 0
  prev_src : σ.prev src = none
  dist_bounds : ∀ v d, σ.dist v = some d → 0 ≤ d ∧ d < 1
  prev_ok : ∀ v w, σ.prev v = some w →
    ∃ dw dv, σ.dist w = some dw ∧ σ.dist v = some dv ∧
      t.graph w v = true ∧ t.interiorAdmissible dest v ∧
      costStep t dw v ≤ dv ∧ dw < dv ∧ w < NETWORK_SIZE ∧ v < NETWORK_SIZE ∧ v ≠ src
  fin_prev : ∀ v, v ≠ src → (∃ d, σ.dist v = some d) → ∃ w, σ.prev v = some w
  entry_dist : ∀ e ∈ σ.heap, ∃ d, σ.dist e.position = some d ∧ d ≤ e.pdr
  entry_pos : ∀ e ∈ σ.heap, e.position < NETWORK_SIZE
  entry_distinct : σ.heap.Pairwise (fun a b => a.position = b.position → a.pdr ≠ b.pdr)
  frontier : ∀ v d, ¬ S v → v ≠ u → σ.dist v = some d → (⟨d, v⟩ : HState) ∈ σ.heap
  settled_lb : ∀ x, S x → ∃ dx, σ.dist x = some dx ∧
      (∀ π, DWalk t src dest π x → dx ≤ pathCost t π) ∧
      (∀ y, t.graph x y = true → y < NETWORK_SIZE → t.interiorAdmissible dest y →
        ∃ dy, σ.dist y = some dy ∧ dy ≤ costStep t dx y)
  settled_stale : ∀ x dx, S x → σ.dist x = some dx → ∀ e ∈ σ.heap, e.position = x → dx < e.pdr
  settled_le : ∀ x dx, S x → σ.dist x = some dx → ∀ e ∈ σ.heap, dx ≤ e.pdr
  dest_free : ¬ S dest
  u_not_settled : ¬ S u
  u_ne_dest : u ≠ dest
  u_lt : u < NETWORK_SIZE
  dist_u : σ.dist u = some k
  k_bounds : 0 ≤ k ∧ k < 1
  settled_le_k : ∀ x dx, S x → σ.dist x = some dx → dx ≤ k
  u_lb : ∀ π, DWalk t src dest π u → k ≤ pathCost t π
  u_stale : ∀ e ∈ σ.heap, e.position = u → k < e.pdr
  k_le_heap : ∀ e ∈ σ.heap, k ≤ e.pdr

/-- The `i`-th `FRAGMENT_DSIZE`-wide slice of a payload
(`data[start..end]` in the fragmenter). -/
def chunk (payload : List Nat) (i : Nat) : List Nat :=
  (payload.drop (i * FRAGMENT_DSIZE)).take FRAGMENT_DSIZE

/-- The `i`-th slice zero-padded to the full frame width (the fragment's
`data` array). -/
def paddedChunk (payload : List Nat) (i : Nat) : List Nat :=
  chunk payload i ++ List.replicate (FRAGMENT_DSIZE - (chunk payload i).length) 0

/-! ### Bit-exact `f64` model (topology.rs floating-point arithmetic)

`Topology` stores drop-rate counters and runs `dijkstra` over `f64`.  The
development above evaluates that arithmetic over exact rationals; the model
below instead reproduces IEEE-754 double precision bit for bit, so that the
floating-point behavior of the routine itself can be settled.  A finite
double is the dyadic rational `num / 2 ^ exp`; every Rust `f64` operation
(`+`, `-`, `*`, `/`) computes the exact result and rounds it to 53
significant bits, to nearest, ties to even mantissa. -/

/-- A finite IEEE-754 double, exactly: the dyadic rational `num / 2 ^ exp`.
The routine's values are finite and nonnegative (no NaN, infinities only as
the `dist` initialisation, modelled by `none` as before), so this carries
the full `f64` semantics of the code. -/
structure F64 where
  num : Int
  exp : Nat

/-- Smallest extra left shift `e` (starting from the accumulator) that
brings the quotient `a / b` into the 53-bit mantissa range
`[2 ^ 52, 2 ^ 53)`.  The fuel `1200` passed below covers the full exponent
range of finite doubles. -/
def normShift (a b : Nat) : Nat → Nat → Nat
  | 0, e => e
  | fuel + 1, e => if 2 ^ 52 * b ≤ a * 2 ^ e then e else normShift a b fuel (e + 1)

/-- Smallest right shift `d` bringing `a / b ≥ 2 ^ 53` down into the 53-bit
mantissa range. -/
def normShiftDown (a b : Nat) : Nat → Nat → Nat
  | 0, d => d
  | fuel + 1, d => if a < 2 ^ 53 * b * 2 ^ d then d else normShiftDown a b fuel (d + 1)

/-- Round the positive rational `a / b` (`a, b > 0`) to the nearest double:
normalise the quotient to 53 significant bits and round by the remainder,
ties to even mantissa — IEEE round-to-nearest-even, the rounding of every
Rust `f64` operation. -/
def roundPosQ (a b : Nat) : F64 :=
  if 2 ^ 53 * b ≤ a then
    let d := normShiftDown a b 1200 0
    let den := b * 2 ^ d
    let q := a / den
    let r := a % den
    let m := if 2 * r < den then q else if den < 2 * r then q + 1
             else if q % 2 = 0 then q else q + 1
    ⟨(m * 2 ^ d : Nat), 0⟩
  else
    let e := normShift a b 1200 0
    let q := a * 2 ^ e / b
    let r := a * 2 ^ e % b
    let m := if 2 * r < b then q else if b < 2 * r then q + 1
             else if q % 2 = 0 then q else q + 1
    ⟨(m : Nat), e⟩

/-- Round the signed exact value `a / b` to the nearest double (IEEE
rounding is symmetric in sign). -/
def F64.round (a : Int) (b : Nat) : F64 :=
  if a = 0 then ⟨0, 0⟩
  else if a < 0 then
    let p := roundPosQ (-a).toNat b
    ⟨-p.num, p.exp⟩
  else roundPosQ a.toNat b

/-- `f64` addition: the exact sum, correctly rounded. -/
def F64.add (x y : F64) : F64 :=
  F64.round (x.num * 2 ^ y.exp + y.num * 2 ^ x.exp) (2 ^ (x.exp + y.exp))

/-- `f64` subtraction: the exact difference, correctly rounded. -/
def F64.sub (x y : F64) : F64 :=
  F64.round (x.num * 2 ^ y.exp - y.num * 2 ^ x.exp) (2 ^ (x.exp + y.exp))

/-- `f64` multiplication: the exact product, correctly rounded. -/
def F64.mul (x y : F64) : F64 :=
  F64.round (x.num * y.num) (2 ^ (x.exp + y.exp))

/-- `f64` comparison by exact value.  On the finite doubles the routine
produces (no NaN, no negative zero) this is both `<` and the order of
`total_cmp`. -/
def F64.lt (x y : F64) : Bool := decide (x.num * 2 ^ y.exp < y.num * 2 ^ x.exp)

/-- `f64` equality by exact value (see `F64.lt`). -/
def F64.beq (x y : F64) : Bool := decide (x.num * 2 ^ y.exp = y.num * 2 ^ x.exp)

/-- The double `0.0`. -/
def F64.zero : F64 := ⟨0, 0⟩

/-- The double `1.0`. -/
def F64.one : F64 := ⟨1, 0⟩

/-- `Topology` under `f64` semantics.  The `observed_trend` counters start
at `1.0` and are only ever incremented by `1.0`, so at every reachable state
they hold exact small integers and every increment and sum of them is an
exact `f64` operation; they are therefore carried as naturals, which loses
nothing.  Graph, types and node id are as in `Topology`. -/
structure TopologyF where
  node_id : Nat
  graph : Nat → Nat → Bool
  types : Nat → NodeType
  trend : Nat → Nat × Nat
  last_reset : Int

/-- `Topology::new` (see `Topology.new`). -/
def TopologyF.new (node_id : Nat) (now : Int) : TopologyF :=
  { node_id := node_id
    graph := fun _ _ => false
    types := fun v => if v = node_id then NodeType.Server else NodeType.Drone
    trend := fun _ => (1, 1)
    last_reset := now - ESTIMATED_UPDATE_TIME }

/-- `Topology::insert_edge` (see `Topology.insert_edge`). -/
def TopologyF.insert_edge (t : TopologyF) (node1 node2 : Nat × NodeType) : TopologyF :=
  { t with
    graph := setAdj t.graph node1.1 node2.1 true
    types := fun v =>
      if v = node2.1 ∧ t.node_id ≠ node2.1 then node2.2
      else if v = node1.1 ∧ t.node_id ≠ node1.1 then node1.2
      else t.types v }

/-- `Topology::observe_success`: `success += 1.0`, exact on integer
counters. -/
def TopologyF.observe_success (t : TopologyF) (node : Nat) : TopologyF :=
  { t with trend := updf t.trend node ((t.trend node).1 + 1, (t.trend node).2) }

/-- `Topology::observe_failure`: `failure += 1.0`, exact on integer
counters. -/
def TopologyF.observe_failure (t : TopologyF) (node : Nat) : TopologyF :=
  { t with trend := updf t.trend node ((t.trend node).1, (t.trend node).2 + 1) }

/-- `Topology::get_observed_pdr` under `f64` semantics: the sum of the
integer counters is exact, and `failure / (success + failure)` is one
correctly rounded `f64` division. -/
def TopologyF.get_observed_pdr (t : TopologyF) (node_id : Nat) : F64 :=
  let trend := t.trend node_id
  if 0 < trend.1 + trend.2 then F64.round (trend.2 : Int) (trend.1 + trend.2) else F64.zero

/-- `State` under `f64` semantics. -/
structure HStateF where
  pdr : F64
  position : Nat

/-- The `Ord` of `State` as a pop-priority: smaller `pdr` pops first, ties
to the larger `position` (see `popsBefore`; `total_cmp` coincides with the
value order here). -/
def popsBeforeF (a b : HStateF) : Bool :=
  F64.lt a.pdr b.pdr || (F64.beq a.pdr b.pdr && decide (b.position ≤ a.position))

/-- `BinaryHeap::pop` on the list model (see `popBest`). -/
def popBestF : List HStateF → Option (HStateF × List HStateF)
  | [] => none
  | h :: t =>
    match popBestF t with
    | none => some (h, [])
    | some (b, rest) => if popsBeforeF h b then some (h, t) else some (b, h :: rest)

/-- The `dist`/`prev`/heap state of the `f64` loop; `none` is
`f64::INFINITY`. -/
structure DijkstraStateF where
  dist : Nat → Option F64
  prev : Nat → Option Nat
  heap : List HStateF

/-- `next_pdr < dist[neighbor]` with `none` as infinity (see
`improvesDist`). -/
def improvesDistF (next : F64) : Option F64 → Bool
  | some dv => F64.lt next dv
  | none => true

/-- `pdr > dist[position]` with `none` as infinity (see `staleEntry`). -/
def staleEntryF (k : F64) : Option F64 → Bool
  | some d => F64.lt d k
  | none => false

/-- The neighbor expansion body under `f64` semantics: the source's
`pdr + (1.0 - pdr) * self.get_observed_pdr(neighbor)` is three `f64`
operations, each correctly rounded (see `relaxNeighbor`). -/
def relaxNeighborF (t : TopologyF) (dest : Nat) (k : F64) (u : Nat)
    (σ : DijkstraStateF) (v : Nat) : DijkstraStateF :=
  if v = dest ∨ t.types v = NodeType.Drone then
    let next := F64.add k (F64.mul (F64.sub F64.one k) (t.get_observed_pdr v))
    if improvesDistF next (σ.dist v) then
      ⟨updf σ.dist v (some next), updf σ.prev v (some u), ⟨next, v⟩ :: σ.heap⟩
    else σ
  else σ

/-- `iter_ones` of a bit-matrix row (see `neighborList`). -/
def neighborListF (t : TopologyF) (u : Nat) : List Nat :=
  (List.range NETWORK_SIZE).filter (fun j => t.graph u j)

/-- The main Dijkstra loop under `f64` semantics (see `dijkstraLoop`). -/
def dijkstraLoopF (t : TopologyF) (dest : Nat) :
    Nat → DijkstraStateF → Except RoutingError (List Nat)
  | 0, _ => .error .NoPathFound
  | fuel + 1, σ =>
    match popBestF σ.heap with
    | none => .error .NoPathFound
    | some (e, rest) =>
      if e.position = dest then
        .ok ((buildPath σ.prev NETWORK_SIZE (some dest) []).reverse)
      else
        if staleEntryF e.pdr (σ.dist e.position) then
          dijkstraLoopF t dest fuel ⟨σ.dist, σ.prev, rest⟩
        else
          dijkstraLoopF t dest fuel
            ((neighborListF t e.position).foldl
              (relaxNeighborF t dest e.pdr e.position) ⟨σ.dist, σ.prev, rest⟩)

/-- `Topology::dijkstra` under `f64` semantics (see `Topology.dijkstra`). -/
def TopologyF.dijkstra (t : TopologyF) (fuel : Nat) (source dest : Nat) :
    Except RoutingError (List Nat) :=
  if source = dest then .error .SourceIsDest
  else
    dijkstraLoopF t dest fuel
      ⟨updf (fun _ => none) source (some F64.zero), fun _ => none, [⟨F64.zero, source⟩]⟩

/-- The spec's per-node drop probability
`p(v) = failure(v) / (success(v) + failure(v))`, evaluated exactly over the
rationals (the spec side of the comparison with the `f64` routine). -/
def specPdr (t : TopologyF) (v : Nat) : ℚ :=
  ((t.trend v).2 : ℚ) / (((t.trend v).1 : ℚ) + ((t.trend v).2 : ℚ))

/-- One step of the spec's cost recursion, exactly over the rationals. -/
def specCostStep (t : TopologyF) (c : ℚ) (v : Nat) : ℚ :=
  c + (1 - c) * specPdr t v

/-- The spec's accumulated drop cost of a path, exactly over the
rationals. -/
def specPathCost (t : TopologyF) (π : List Nat) : ℚ :=
  π.tail.foldl (specCostStep t) 0

/-- `chainAdj` on the `f64`-side topology, as a boolean. -/
def chainAdjF (t : TopologyF) : List Nat → Bool
  | [] => true
  | [_] => true
  | a :: b :: l => t.graph a b && chainAdjF t (b :: l)

/-- `ValidPath` on the `f64`-side topology. -/
def ValidPathF (t : TopologyF) (src dest : Nat) (π : List Nat) : Prop :=
  π.head? = some src ∧ π.getLast? = some dest ∧ 2 ≤ π.length ∧
    chainAdjF t π = true ∧
    (∀ v ∈ π.tail.dropLast, t.types v = NodeType.Drone) ∧ ∀ v ∈ π, v < NETWORK_SIZE

instance (t : TopologyF) (src dest : Nat) (π : List Nat) :
    Decidable (ValidPathF t src dest π) := by
  unfold ValidPathF; infer_instance

/-- The edges of the counterexample topology: engine node 20; two disjoint
drone chains from client 0 to server 9, through nodes 1–7 and through nodes
11–17. -/
def TF0edges : TopologyF :=
  ((((((((((((((((TopologyF.new 20 0).insert_edge
    (0, NodeType.Client) (1, NodeType.Drone)).insert_edge
    (1, NodeType.Drone) (2, NodeType.Drone)).insert_edge
    (2, NodeType.Drone) (3, NodeType.Drone)).insert_edge
    (3, NodeType.Drone) (4, NodeType.Drone)).insert_edge
    (4, NodeType.Drone) (5, NodeType.Drone)).insert_edge
    (5, NodeType.Drone) (6, NodeType.Drone)).insert_edge
    (6, NodeType.Drone) (7, NodeType.Drone)).insert_edge
    (7, NodeType.Drone) (9, NodeType.Server)).insert_edge
    (0, NodeType.Client) (11, NodeType.Drone)).insert_edge
    (11, NodeType.Drone) (12, NodeType.Drone)).insert_edge
    (12, NodeType.Drone) (13, NodeType.Drone)).insert_edge
    (13, NodeType.Drone) (14, NodeType.Drone)).insert_edge
    (14, NodeType.Drone) (15, NodeType.Drone)).insert_edge
    (15, NodeType.Drone) (16, NodeType.Drone)).insert_edge
    (16, NodeType.Drone) (17, NodeType.Drone)).insert_edge
    (17, NodeType.Drone) (9, NodeType.Server)

/-- The counterexample topology: every counter grown from the initial
`{1, 1}` by individual `observe_success` / `observe_failure` calls, so the
state is reachable.  Final counters (success, failure): node 1 `(2, 27)`,
node 2 `(3, 28)`, node 3 `(1, 31)`, node 4 `(1, 30)`, node 5 `(1, 13)`,
node 6 `(3, 26)`, node 7 `(1, 13)`; node 11 `(2, 23)`, node 12 `(2, 16)`,
node 13 `(1, 25)`, node 14 `(1, 25)`, node 15 `(1, 13)`, node 16 `(1, 22)`,
node 17 `(2, 21)`; node 9 keeps `(1, 1)`. -/
def TF0 : TopologyF :=
  (fun t => TopologyF.observe_success t 1)^[1] <|
  (fun t => TopologyF.observe_failure t 1)^[26] <|
  (fun t => TopologyF.observe_success t 2)^[2] <|
  (fun t => TopologyF.observe_failure t 2)^[27] <|
  (fun t => TopologyF.observe_failure t 3)^[30] <|
  (fun t => TopologyF.observe_failure t 4)^[29] <|
  (fun t => TopologyF.observe_failure t 5)^[12] <|
  (fun t => TopologyF.observe_success t 6)^[2] <|
  (fun t => TopologyF.observe_failure t 6)^[25] <|
  (fun t => TopologyF.observe_failure t 7)^[12] <|
  (fun t => TopologyF.observe_success t 11)^[1] <|
  (fun t => TopologyF.observe_failure t 11)^[22] <|
  (fun t => TopologyF.observe_success t 12)^[1] <|
  (fun t => TopologyF.observe_failure t 12)^[15] <|
  (fun t => TopologyF.observe_failure t 13)^[24] <|
  (fun t => TopologyF.observe_failure t 14)^[24] <|
  (fun t => TopologyF.observe_failure t 15)^[12] <|
  (fun t => TopologyF.observe_failure t 16)^[21] <|
  (fun t => TopologyF.observe_success t 17)^[1] <|
  (fun t => TopologyF.observe_failure t 17)^[20] <|
  TF0edges

/-- A concrete topology for evaluation: engine node 4, a single recorded
link between client 0 and server 3. -/
def T0 : Topology :=
  (Topology.new 4 0).insert_edge (0, NodeType.Client) (3, NodeType.Server)

/-! # Theorems -/

/-! ## Generic helpers -/

@[simp]
theorem updf_same {α : Type} (f : Nat → α) (k : Nat) (v : α) : updf f k v k = v := by
  simp [updf]

@[simp]
theorem updf_other {α : Type} (f : Nat → α) (k : Nat) (v : α) (x : Nat) (h : x ≠ k) :
    updf f k v x = f x := by
  simp [updf, h]

@[simp]
theorem cacheUpd_same (c : Nat × Nat → Option ToBeSentFragment) (k : Nat × Nat)
    (v : Option ToBeSentFragment) : cacheUpd c k v k = v := by
  simp [cacheUpd]

/-! ## C6: empty-payload fragmentation -/

/-- Claim C6, counterexample to the session-counter clause: on an empty
payload the fragmenter produces zero records but its session counter moves
from 1 to 2, so a session id is consumed. -/
theorem C6_counterexample :
    (Fragmenter.new.to_fragment_vec ⟨[], 0⟩).1 = [] ∧
    (Fragmenter.new.to_fragment_vec ⟨[], 0⟩).2.session_id ≠ Fragmenter.new.session_id := by
  decide

/-- Claim C6 (amended): `to_fragment_vec` on an empty payload returns zero
fragment records, and the session counter is nevertheless incremented by one
(a session id is consumed even though no fragment carries it). -/
theorem C6_empty_payload (f : Fragmenter) (dest : Nat) :
    (f.to_fragment_vec ⟨[], dest⟩).1 = [] ∧
    (f.to_fragment_vec ⟨[], dest⟩).2.session_id = f.session_id + 1 := by
  simp [Fragmenter.to_fragment_vec]

/-! ## C5: self-kind pinning -/

theorem applyTopOp_node_id (t : Topology) (op : TopOp) :
    (applyTopOp t op).node_id = t.node_id := by
  cases op <;> rfl

theorem applyTopOp_types_self (t : Topology) (op : TopOp) (hop : op.notReset)
    (hid : t.types t.node_id = NodeType.Server) :
    (applyTopOp t op).types (applyTopOp t op).node_id = NodeType.Server := by
  cases op with
  | insert n1 n2 =>
    simp only [applyTopOp, Topology.insert_edge]
    by_cases h2 : t.node_id = n2.1 ∧ t.node_id ≠ n2.1
    · exact absurd h2.1 h2.2
    · by_cases h1 : t.node_id = n1.1 ∧ t.node_id ≠ n1.1
      · exact absurd h1.1 h1.2
      · simp [h1, h2, hid]
  | remove a b => exact hid
  | reset now => exact absurd hop (by simp [TopOp.notReset])
  | obsSuccess n => exact hid
  | obsFailure n => exact hid

/-- Claim C5, counterexample: `reset` clears every recorded kind to `Drone`,
the engine's own slot included, so after the operation sequence `[reset]`
the engine's own kind is `Drone`, not `Server`. -/
theorem C5_counterexample :
    (applyTopOps [TopOp.reset 1] (Topology.new 5 0)).types 5 ≠ NodeType.Server ∧
    (applyTopOps [TopOp.reset 1] (Topology.new 5 0)).types 5 = NodeType.Drone := by
  decide

/-- Claim C5 (amended): after every sequence of `insert_edge` (with
arbitrary claimed kinds), `remove_edge`, `observe_success` and
`observe_failure` operations — any sequence containing no `reset` — the
recorded kind of the engine's own node id is still `Server`.  (`reset` sets
every kind, the engine's own included, to `Drone`.) -/
theorem C5_self_kind_pinned (id : Nat) (now : Int) (ops : List TopOp)
    (h : ∀ op ∈ ops, op.notReset) :
    (applyTopOps ops (Topology.new id now)).types id = NodeType.Server := by
  suffices H : ∀ t : Topology, t.node_id = id → t.types id = NodeType.Server →
      (applyTopOps ops t).types id = NodeType.Server by
    exact H (Topology.new id now) rfl (by simp [Topology.new])
  induction ops with
  | nil => intro t _ hts; exact hts
  | cons op rest ih =>
    intro t hnid hts
    have hop := h op (by simp)
    have hstep := applyTopOp_types_self t op hop (by rw [hnid]; exact hts)
    rw [applyTopOp_node_id, hnid] at hstep
    exact ih (fun o ho => h o (by simp [ho])) (applyTopOp t op)
      (by rw [applyTopOp_node_id, hnid]) hstep

/-- Witness for C5: a concrete reset-free operation sequence. -/
theorem C5_witness :
    (∀ op ∈ [TopOp.insert (1, NodeType.Client) (2, NodeType.Drone),
             TopOp.obsFailure 2, TopOp.remove 1 2], op.notReset) ∧
    (applyTopOps [TopOp.insert (1, NodeType.Client) (2, NodeType.Drone),
             TopOp.obsFailure 2, TopOp.remove 1 2] (Topology.new 5 0)).types 5
      = NodeType.Server :=
  ⟨by decide, C5_self_kind_pinned 5 0 _ (by decide)⟩

/-! ## C8: default Drone kinds and interior admissibility -/

theorem applyTopOp_types_avoided (t : Topology) (op : TopOp) (v : Nat)
    (hop : op.avoids v) (hv : t.types v = NodeType.Drone) :
    (applyTopOp t op).types v = NodeType.Drone := by
  cases op with
  | insert n1 n2 =>
    obtain ⟨h1, h2⟩ := hop
    simp only [applyTopOp, Topology.insert_edge]
    have e2 : ¬(v = n2.1 ∧ t.node_id ≠ n2.1) := fun h => h2 h.1.symm
    have e1 : ¬(v = n1.1 ∧ t.node_id ≠ n1.1) := fun h => h1 h.1.symm
    simp [e1, e2, hv]
  | remove a b => exact hv
  | reset now => rfl
  | obsSuccess n => exact hv
  | obsFailure n => exact hv

/-- Claim C8, counterexample: in a freshly constructed topology the engine's
own node id — a node id never named in any `insert_edge` call — has kind
`Server`, not `Drone`, and fails Dijkstra's interior-hop admissibility test
(for any destination other than itself). -/
theorem C8_counterexample :
    (Topology.new 5 0).types 5 ≠ NodeType.Drone ∧
    ¬ (Topology.new 5 0).interiorAdmissible 7 5 := by
  decide

/-- Claim C8 (amended): starting from a freshly constructed topology, after
any operation sequence (resets included) in which no `insert_edge` names
node `v`, every node `v` other than the engine's own id has recorded kind
`Drone` — in particular this holds for the fresh topology and immediately
after every reset — and such a `v` passes Dijkstra's interior-hop
admissibility test for every destination.  (The engine's own slot is `Server`
when fresh, so the claim fails for `v` equal to the engine id.) -/
theorem C8_never_inserted_admissible (id v : Nat) (now : Int) (ops : List TopOp)
    (hv : v ≠ id) (havoid : ∀ op ∈ ops, op.avoids v) :
    (applyTopOps ops (Topology.new id now)).types v = NodeType.Drone ∧
    ∀ dest, (applyTopOps ops (Topology.new id now)).interiorAdmissible dest v := by
  have H : ∀ t : Topology, t.types v = NodeType.Drone →
      (applyTopOps ops t).types v = NodeType.Drone := by
    induction ops with
    | nil => intro t ht; exact ht
    | cons op rest ih =>
      intro t ht
      exact ih (fun o ho => havoid o (by simp [ho])) (applyTopOp t op)
        (applyTopOp_types_avoided t op v (havoid op (by simp)) ht)
  have h0 : (Topology.new id now).types v = NodeType.Drone := by
    simp [Topology.new, hv]
  refine ⟨H _ h0, fun dest => Or.inr (H _ h0)⟩

/-- Witness for C8: node 3 is untouched by a discovery sequence that resets
and re-learns edges among other nodes. -/
theorem C8_witness :
    ((3 : Nat) ≠ 5) ∧
    (∀ op ∈ [TopOp.reset 4, TopOp.insert (1, NodeType.Client) (2, NodeType.Drone)],
        op.avoids 3) ∧
    (applyTopOps [TopOp.reset 4, TopOp.insert (1, NodeType.Client) (2, NodeType.Drone)]
        (Topology.new 5 0)).types 3 = NodeType.Drone ∧
    ∀ dest, (applyTopOps [TopOp.reset 4, TopOp.insert (1, NodeType.Client) (2, NodeType.Drone)]
        (Topology.new 5 0)).interiorAdmissible dest 3 :=
  ⟨by decide, by decide,
    (C8_never_inserted_admissible 5 3 0 _ (by decide) (by decide)).1,
    (C8_never_inserted_admissible 5 3 0 _ (by decide) (by decide)).2⟩

/-! ## C7: cache coherence across Ack then Nack -/

/-- Claim C7: handling an Ack for `(session_id, fragment_index)` removes the
retransmit-cache entry under that key, and a Nack with the same key handled
immediately afterwards — of any kind — leaves both the retransmit cache and
the send buffer exactly as the Ack left them (nothing is re-enqueued). -/
theorem C7_cache_coherence (s : ServerSt) (sid i : Nat) (nt : NackType)
    (hdr hdr2 : SourceRoutingHeader) (now : Int) :
    (s.handle_ack ⟨i⟩ sid hdr).fragment_manager.cache (sid, i) = none ∧
    ((s.handle_ack ⟨i⟩ sid hdr).handle_nack ⟨i, nt⟩ sid hdr2 now).1.fragment_manager.cache
      = (s.handle_ack ⟨i⟩ sid hdr).fragment_manager.cache ∧
    ((s.handle_ack ⟨i⟩ sid hdr).handle_nack ⟨i, nt⟩ sid hdr2 now).1.fragment_manager.buffer
      = (s.handle_ack ⟨i⟩ sid hdr).fragment_manager.buffer := by
  have hnone : (s.handle_ack ⟨i⟩ sid hdr).fragment_manager.cache (sid, i) = none := by
    simp [ServerSt.handle_ack, FragmentManager.remove_from_cache]
  refine ⟨hnone, ?_⟩
  cases nt <;>
    simp [ServerSt.handle_nack, ServerSt.start_network_discovery,
      FragmentManager.insert_from_cache, hnone]

/-! ## C9: retrieval is atomic on error -/

theorem assembleData_no_none (l : List (Option (List Nat))) (h : l.count none = 0) :
    ∃ out, assembleData l = .ok out := by
  induction l with
  | nil => exact ⟨[], rfl⟩
  | cons o rest ih =>
    cases o with
    | none => simp at h
    | some d =>
      have hrest : rest.count none = 0 := by
        have := List.count_cons (b := (some d : Option (List Nat))) (a := (none : Option (List Nat))) (l := rest)
        simp at h
        omega
      obtain ⟨out, hout⟩ := ih hrest
      exact ⟨d ++ out, by simp [assembleData, hout]⟩

/-- Claim C9: `AssemblersManager::retrieve_assembled` is atomic on error —
whenever it returns `Incomplete` or `UnknownSessionId` (on any buffer whose
stored assemblers satisfy the `fragments_left = number of empty slots`
invariant, which every reachable buffer does), the assembly buffer is
returned completely unchanged; the slot is removed only on success. -/
theorem C9_retrieve_atomic_on_error (m : AssemblersManager) (sid : Nat) (e : RetrieveError)
    (hwf : m.wf) (herr : (m.retrieve_assembled sid).1 = .error e) :
    (m.retrieve_assembled sid).2 = m := by
  unfold AssemblersManager.retrieve_assembled at herr ⊢
  cases hb : m.assembly_buffer sid with
  | none => simp [hb]
  | some a =>
    simp only [hb] at herr ⊢
    by_cases hc : a.is_complete
    · exfalso
      have hcnt : a.data.count none = 0 := by
        have := hwf sid a hb
        unfold Assembler.wf at this
        unfold Assembler.is_complete at hc
        omega
      obtain ⟨out, hout⟩ := assembleData_no_none a.data hcnt
      simp [hc, Assembler.retrieve_assembled, hout] at herr
    · simp [hc]

/-- Witness for C9: retrieving an unknown session from a buffer holding one
incomplete well-formed assembler leaves the buffer untouched. -/
theorem C9_witness :
    (AssemblersManager.mk (updf (fun _ => none) 4 (some (Assembler.new 2)))).wf ∧
    ((AssemblersManager.mk (updf (fun _ => none) 4 (some (Assembler.new 2)))).retrieve_assembled 9).1
      = .error .UnknownSessionId ∧
    ((AssemblersManager.mk (updf (fun _ => none) 4 (some (Assembler.new 2)))).retrieve_assembled 9).2
      = AssemblersManager.mk (updf (fun _ => none) 4 (some (Assembler.new 2))) := by
  have hwf : (AssemblersManager.mk (updf (fun _ => none) 4 (some (Assembler.new 2)))).wf := by
    intro sid a ha
    simp only [updf] at ha
    by_cases h4 : sid = 4
    · subst h4
      simp at ha
      subst ha
      decide
    · simp [h4] at ha
  refine ⟨hwf, rfl, ?_⟩
  exact C9_retrieve_atomic_on_error _ 9 .UnknownSessionId hwf rfl

/-! ## C10: zero-total insertion leaves a complete empty slot -/

/-- Claim C10: inserting a fragment declaring `total_n_fragments = 0` for a
session with no existing slot returns `IndexOutOfBounds`, yet creates and
leaves in the assembly buffer a zero-capacity slot that already reports
complete, so a later `retrieve_assembled` for that session succeeds with an
empty byte vector (and removes the slot). -/
theorem C10_zero_total_slot (m : AssemblersManager) (frag : Fragment) (sid : Nat)
    (h0 : frag.total_n_fragments = 0) (hnone : m.assembly_buffer sid = none) :
    (m.insert_fragment frag sid).1 = .error .IndexOutOfBounds ∧
    (m.insert_fragment frag sid).2.assembly_buffer sid = some (Assembler.new 0) ∧
    (Assembler.new 0).is_complete ∧
    ((m.insert_fragment frag sid).2.retrieve_assembled sid).1 = .ok [] ∧
    ((m.insert_fragment frag sid).2.retrieve_assembled sid).2.assembly_buffer sid = none := by
  have hins : (Assembler.new 0).insert_fragment frag
      = (.error .IndexOutOfBounds, Assembler.new 0) := by
    unfold Assembler.insert_fragment Assembler.new
    simp [h0]
  have hmain : m.insert_fragment frag sid
      = (.error .IndexOutOfBounds, ⟨updf m.assembly_buffer sid (some (Assembler.new 0))⟩) := by
    unfold AssemblersManager.insert_fragment
    rw [hnone]
    simp only [h0, hins]
  rw [hmain]
  refine ⟨rfl, by simp, by decide, ?_, ?_⟩ <;>
    simp [AssemblersManager.retrieve_assembled, Assembler.retrieve_assembled, Assembler.new,
      assembleData, Assembler.is_complete]

/-- Witness for C10: a concrete zero-total fragment into an empty manager. -/
theorem C10_witness :
    (Fragment.mk 0 0 0 (List.replicate 128 0)).total_n_fragments = 0 ∧
    AssemblersManager.new.assembly_buffer 7 = none ∧
    (AssemblersManager.new.insert_fragment ⟨0, 0, 0, List.replicate 128 0⟩ 7).1
      = .error .IndexOutOfBounds ∧
    ((AssemblersManager.new.insert_fragment ⟨0, 0, 0, List.replicate 128 0⟩ 7).2.retrieve_assembled 7).1
      = .ok [] :=
  ⟨rfl, rfl,
    (C10_zero_total_slot AssemblersManager.new _ 7 rfl rfl).1,
    (C10_zero_total_slot AssemblersManager.new _ 7 rfl rfl).2.2.2.1⟩

/-! ## C2: reassembly output -/

theorem assembleData_all_some (l : List (Option (List Nat))) (h : ∀ o ∈ l, o.isSome) :
    assembleData l = .ok ((l.map (fun o => o.getD [])).flatten) := by
  induction l with
  | nil => rfl
  | cons o rest ih =>
    cases o with
    | none => exact absurd (h none (by simp)) (by simp)
    | some d =>
      have := ih (fun o ho => h o (by simp [ho]))
      simp [assembleData, this]

theorem join_all_dsize (L : List (List Nat)) (h : ∀ b ∈ L, b.length = FRAGMENT_DSIZE) :
    L.flatten.length = L.length * FRAGMENT_DSIZE := by
  induction L with
  | nil => simp
  | cons b rest ih =>
    have hb := h b (by simp)
    have := ih (fun x hx => h x (by simp [hx]))
    simp [List.flatten, this, hb, Nat.succ_mul, Nat.add_comm]

set_option maxRecDepth 8192 in
/-- Claim C2, counterexample: a complete one-fragment session whose final
fragment declares `length = 1` is retrieved as the full 128-byte block —
the retrieved vector has length 128, not `(1 - 1) * FRAME_SIZE + 1 = 1`;
the `length` field never truncates anything. -/
theorem C2_counterexample :
    ((AssemblersManager.new.insert_fragment ⟨0, 1, 1, 7 :: List.replicate 127 0⟩ 3).2.retrieve_assembled 3).1
      = .ok (7 :: List.replicate 127 0) ∧
    (7 :: List.replicate 127 0).length ≠ (1 - 1) * FRAGMENT_DSIZE + 1 := by
  exact ⟨rfl, by decide⟩

/-- Claim C2 (amended): for every complete session the retrieved assembled
data is the concatenation of the stored fragment payloads in index order,
with no truncation: its length is `total_n_fragments * FRAGMENT_DSIZE`
(every stored payload being a full `FRAGMENT_DSIZE` block, as every fragment
received from the overlay is). -/
theorem C2_reassembly_output (a : Assembler)
    (hsome : ∀ o ∈ a.data, o.isSome)
    (hlen : ∀ o ∈ a.data, (Option.getD o []).length = FRAGMENT_DSIZE) :
    a.retrieve_assembled = .ok ((a.data.map (fun o => o.getD [])).flatten) ∧
    ((a.data.map (fun o => o.getD [])).flatten).length = a.data.length * FRAGMENT_DSIZE := by
  refine ⟨assembleData_all_some a.data hsome, ?_⟩
  have := join_all_dsize (a.data.map (fun o => o.getD []))
    (fun b hb => by
      obtain ⟨o, ho, rfl⟩ := List.mem_map.mp hb
      exact hlen o ho)
  simpa using this

set_option maxRecDepth 8192 in
/-- Witness for C2: a complete two-fragment session. -/
theorem C2_witness :
    (∀ o ∈ (Assembler.mk [some (List.replicate 128 3), some (List.replicate 128 4)] 0).data, o.isSome) ∧
    (Assembler.mk [some (List.replicate 128 3), some (List.replicate 128 4)] 0).retrieve_assembled
      = .ok (List.replicate 128 3 ++ List.replicate 128 4) ∧
    (List.replicate 128 3 ++ List.replicate 128 4 : List Nat).length = 2 * FRAGMENT_DSIZE := by
  have h := C2_reassembly_output
    (Assembler.mk [some (List.replicate 128 3), some (List.replicate 128 4)] 0)
    (by decide) (by decide)
  refine ⟨by decide, ?_, ?_⟩
  · have := h.1
    simpa using this
  · have := h.2
    simpa using this

/-! ## C1: fragment round-trip -/

set_option maxRecDepth 8192 in
/-- Claim C1, counterexample: the one-byte payload `[1]` round-trips to the
full zero-padded 128-byte block, not to `[1]` — `retrieve_assembled` never
truncates by the final fragment's `length` field. -/
theorem C1_counterexample :
    roundTrip [1] = .ok (1 :: List.replicate 127 0) ∧ roundTrip [1] ≠ .ok [1] := by
  have h : roundTrip [1] = .ok (1 :: List.replicate 127 0) := rfl
  refine ⟨h, ?_⟩
  rw [h]
  intro hc
  injection hc with h2
  exact absurd h2 (by decide)

/-! ### C1 (amended): the general padded round-trip -/

theorem to_fragment_vec_eq (P : List Nat) :
    (Fragmenter.new.to_fragment_vec ⟨P, 0⟩).1
      = (List.range (numFragments P)).map
          (fun i => ⟨0, 1, ⟨i, numFragments P, (chunk P i).length, paddedChunk P i⟩⟩) :=
  rfl

theorem insert_set (a : Assembler) (fr : Fragment)
    (hT : fr.total_n_fragments = a.data.length) (hi : fr.fragment_index < a.data.length) :
    ((a.insert_fragment fr).2).data = a.data.set fr.fragment_index (some fr.data) := by
  unfold Assembler.insert_fragment
  rw [if_neg (by simp [hT]), if_neg (by simp [Nat.not_le.mpr hi])]
  simp only []
  split <;> split <;> rfl

theorem foldl_insert_chunks (P : List Nat) (N : Nat) (l : List Nat)
    (hmem : ∀ i ∈ l, i < N) :
    ∀ a : Assembler, a.data.length = N →
    (l.foldl (fun a i =>
        (a.insert_fragment ⟨i, N, (chunk P i).length, paddedChunk P i⟩).2) a).data
      = l.foldl (fun d i => d.set i (some (paddedChunk P i))) a.data := by
  induction l with
  | nil => intro a _; rfl
  | cons i rest ih =>
    intro a hlen
    have hi : i < N := hmem i (by simp)
    have hset := insert_set a ⟨i, N, (chunk P i).length, paddedChunk P i⟩
      (by simpa using hlen.symm) (by simpa using hlen ▸ hi)
    simp only [List.foldl_cons]
    rw [ih (fun x hx => hmem x (by simp [hx])) _
        (by rw [hset]; simpa using hlen), hset]

theorem foldl_set_getq (c : Nat → Option (List Nat)) (l : List Nat) :
    ∀ (d : List (Option (List Nat))) (j : Nat),
    (l.foldl (fun d i => d.set i (c i)) d)[j]?
      = if j ∈ l ∧ j < d.length then some (c j) else d[j]? := by
  induction l with
  | nil => intro d j; simp
  | cons i rest ih =>
    intro d j
    rw [List.foldl_cons, ih, List.length_set, List.getElem?_set]
    by_cases hij : i = j
    · subst hij
      by_cases hjd : i < d.length
      · by_cases hjr : i ∈ rest <;> simp [hjd, hjr]
      · have hnone : d[i]? = none := List.getElem?_eq_none (Nat.le_of_not_lt hjd)
        by_cases hjr : i ∈ rest <;> simp [hjd, hjr, hnone]
    · have hmem : (j ∈ i :: rest) ↔ j ∈ rest := by
        constructor
        · intro hh
          rcases List.mem_cons.mp hh with h1 | h2
          · exact absurd h1.symm hij
          · exact h2
        · exact fun hh => List.mem_cons.mpr (Or.inr hh)
      by_cases hjd : j < d.length
      · by_cases hjr : j ∈ rest <;> simp [hij, hjr, hjd, hmem]
      · have hnone : d[j]? = none := List.getElem?_eq_none (Nat.le_of_not_lt hjd)
        by_cases hjr : j ∈ rest <;> simp [hij, hjr, hjd, hmem, hnone]

theorem fold_set_chunks_data (P : List Nat) (N : Nat) :
    (List.range N).foldl (fun d i => d.set i (some (paddedChunk P i)))
        (List.replicate N none)
      = (List.range N).map (fun i => some (paddedChunk P i)) := by
  apply List.ext_getElem?
  intro j
  rw [foldl_set_getq (fun i => some (paddedChunk P i))]
  by_cases hj : j < N
  · rw [if_pos ⟨List.mem_range.mpr hj, by simpa using hj⟩, List.getElem?_map,
      List.getElem?_range hj]
    rfl
  · rw [if_neg (fun hh => hj (List.mem_range.mp hh.1)),
      List.getElem?_eq_none (by simpa using Nat.le_of_not_lt hj),
      List.getElem?_eq_none (by simpa using Nat.le_of_not_lt hj)]

theorem numFragments_succ_bounds (P : List Nat) (N : Nat) (h : numFragments P = N + 1) :
    P ≠ [] ∧ FRAGMENT_DSIZE * N + 1 ≤ P.length ∧ P.length ≤ FRAGMENT_DSIZE * (N + 1) := by
  by_cases hP : P = []
  · subst hP; simp [numFragments] at h
  · have hq : (P.length + FRAGMENT_DSIZE - 1) / FRAGMENT_DSIZE = N + 1 := by
      simpa [numFragments, hP] using h
    have hdm := Nat.div_add_mod (P.length + FRAGMENT_DSIZE - 1) FRAGMENT_DSIZE
    rw [hq] at hdm
    have hmod : (P.length + FRAGMENT_DSIZE - 1) % FRAGMENT_DSIZE < FRAGMENT_DSIZE :=
      Nat.mod_lt _ (by simp [FRAGMENT_DSIZE])
    have hlen : P.length ≠ 0 := fun hl => hP (List.length_eq_zero.mp hl)
    simp only [show FRAGMENT_DSIZE = 128 from rfl] at hdm hmod ⊢
    exact ⟨hP, by omega, by omega⟩

theorem numFragments_drop (P : List Nat) (N : Nat) (h : numFragments P = N + 1) :
    numFragments (P.drop FRAGMENT_DSIZE) = N := by
  obtain ⟨hP, hlo, hhi⟩ := numFragments_succ_bounds P N h
  have hdlen : (P.drop FRAGMENT_DSIZE).length = P.length - FRAGMENT_DSIZE := by
    simp
  by_cases hP2 : P.drop FRAGMENT_DSIZE = []
  · have h0 : P.length - FRAGMENT_DSIZE = 0 := by rw [← hdlen, hP2]; rfl
    have hN : N = 0 := by
      simp only [show FRAGMENT_DSIZE = 128 from rfl] at hlo hhi h0
      omega
    simp [numFragments, hP2, hN]
  · have hpos : 0 < P.length - FRAGMENT_DSIZE := by
      rw [← hdlen]
      exact List.length_pos.mpr hP2
    have hq : numFragments (P.drop FRAGMENT_DSIZE)
        = ((P.length - FRAGMENT_DSIZE) + FRAGMENT_DSIZE - 1) / FRAGMENT_DSIZE := by
      simp [numFragments, hP2, hdlen]
    rw [hq]
    have hdm := Nat.div_add_mod ((P.length - FRAGMENT_DSIZE) + FRAGMENT_DSIZE - 1) FRAGMENT_DSIZE
    have hmod : ((P.length - FRAGMENT_DSIZE) + FRAGMENT_DSIZE - 1) % FRAGMENT_DSIZE
        < FRAGMENT_DSIZE := Nat.mod_lt _ (by simp [FRAGMENT_DSIZE])
    simp only [show FRAGMENT_DSIZE = 128 from rfl] at hdm hmod hlo hhi hpos ⊢
    omega

theorem chunk_shift (P : List Nat) (i : Nat) :
    paddedChunk P (i + 1) = paddedChunk (P.drop FRAGMENT_DSIZE) i := by
  have harg : chunk P (i + 1) = chunk (P.drop FRAGMENT_DSIZE) i := by
    unfold chunk
    rw [List.drop_drop]
    congr 2
    rw [Nat.succ_mul, Nat.add_comm]
  unfold paddedChunk
  rw [harg]

set_option maxRecDepth 4096 in
theorem flatten_chunks : ∀ (N : Nat) (P : List Nat), numFragments P = N →
    ((List.range N).map (paddedChunk P)).flatten
      = P ++ List.replicate (N * FRAGMENT_DSIZE - P.length) 0 := by
  intro N
  induction N with
  | zero =>
    intro P h
    have hP : P = [] := by
      by_contra hne
      have hq : (P.length + FRAGMENT_DSIZE - 1) / FRAGMENT_DSIZE = 0 := by
        simpa [numFragments, hne] using h
      have hlt := (Nat.div_eq_zero_iff (by simp [FRAGMENT_DSIZE] : 0 < FRAGMENT_DSIZE)).mp hq
      have hlen : P.length ≠ 0 := fun hl => hne (List.length_eq_zero.mp hl)
      simp only [show FRAGMENT_DSIZE = 128 from rfl] at hlt
      omega
    subst hP
    simp
  | succ N ih =>
    intro P h
    obtain ⟨hPne, hlo, hhi⟩ := numFragments_succ_bounds P N h
    have hdrop := numFragments_drop P N h
    rw [List.range_succ_eq_map, List.map_cons, List.map_map, List.flatten_cons]
    have hcomp : (paddedChunk P ∘ fun i => i + 1) = paddedChunk (P.drop FRAGMENT_DSIZE) := by
      funext i
      exact chunk_shift P i
    rw [hcomp, ih _ hdrop]
    have hchunk0 : chunk P 0 = P.take FRAGMENT_DSIZE := by
      unfold chunk
      rw [Nat.zero_mul, List.drop_zero]
    by_cases hc : P.length ≤ FRAGMENT_DSIZE
    · have hN : N = 0 := by
        simp only [show FRAGMENT_DSIZE = 128 from rfl] at hlo hc
        omega
      subst hN
      have hd0 : P.drop FRAGMENT_DSIZE = [] := List.drop_eq_nil_of_le hc
      have ht : P.take FRAGMENT_DSIZE = P := List.take_of_length_le hc
      unfold paddedChunk
      rw [hchunk0, ht, hd0]
      have hcnt : FRAGMENT_DSIZE - P.length = (0 + 1) * FRAGMENT_DSIZE - P.length := by
        have hD : FRAGMENT_DSIZE = 128 := rfl
        omega
      rw [hcnt]
      simp
    · push_neg at hc
      have ht : (P.take FRAGMENT_DSIZE).length = FRAGMENT_DSIZE := by
        rw [List.length_take]
        simp only [show FRAGMENT_DSIZE = 128 from rfl] at hc ⊢
        omega
      unfold paddedChunk
      rw [hchunk0, ht]
      have hcnt : N * FRAGMENT_DSIZE - (P.drop FRAGMENT_DSIZE).length
          = (N + 1) * FRAGMENT_DSIZE - P.length := by
        rw [List.length_drop]
        simp only [show FRAGMENT_DSIZE = 128 from rfl] at hlo hhi hc ⊢
        omega
      rw [hcnt]
      simp only [Nat.sub_self, List.replicate_zero, List.append_nil]
      rw [← List.append_assoc, List.take_append_drop]

/-- Claim C1 (amended): fragmenting any payload `P` and reinserting all
produced fragments into an assembler yields `P` zero-padded to
`numFragments P * FRAGMENT_DSIZE` bytes — the payload followed by the final
fragment's padding, since `retrieve_assembled` concatenates full
`FRAGMENT_DSIZE` blocks without truncating by the last fragment's `length`
field.  The result equals `P` exactly when `P`'s length is a multiple of
`FRAGMENT_DSIZE`; in particular the empty payload produces zero fragments
and round-trips to the empty vector. -/
theorem C1_fragment_roundtrip (payload : List Nat) :
    roundTrip payload
      = .ok (payload
          ++ List.replicate (numFragments payload * FRAGMENT_DSIZE - payload.length) 0) := by
  simp only [roundTrip, to_fragment_vec_eq, List.length_map, List.length_range,
    List.foldl_map, Assembler.retrieve_assembled]
  rw [foldl_insert_chunks payload (numFragments payload) (List.range (numFragments payload))
      (fun i hi => List.mem_range.mp hi) (Assembler.new (numFragments payload))
      (by simp [Assembler.new])]
  rw [show (Assembler.new (numFragments payload)).data
      = List.replicate (numFragments payload) none from rfl]
  rw [fold_set_chunks_data]
  rw [assembleData_all_some _
      (by intro o ho; obtain ⟨i, _, rfl⟩ := List.mem_map.mp ho; rfl)]
  rw [List.map_map]
  rw [show ((fun o => Option.getD o []) ∘ fun i => some (paddedChunk payload i))
      = paddedChunk payload from rfl]
  rw [flatten_chunks (numFragments payload) payload rfl]

/-! ## C3/C4: the Dijkstra development -/

/-! ### Drop-cost algebra -/

theorem pdr_bounds (t : Topology) (HP : pdrBounded t) (v : Nat) :
    0 < t.get_observed_pdr v ∧ t.get_observed_pdr v < 1 := by
  obtain ⟨hs, hf⟩ := HP v
  unfold Topology.get_observed_pdr
  have hpos : 0 < (t.observed_trend v).success + (t.observed_trend v).failure := by linarith
  rw [if_pos hpos]
  refine ⟨div_pos hf hpos, ?_⟩
  rw [div_lt_one hpos]
  linarith

theorem costStep_ge (t : Topology) (HP : pdrBounded t) (c : ℚ) (v : Nat) (hc1 : c ≤ 1) :
    c ≤ costStep t c v := by
  obtain ⟨hp0, _⟩ := pdr_bounds t HP v
  unfold costStep
  nlinarith

theorem costStep_gt (t : Topology) (HP : pdrBounded t) (c : ℚ) (v : Nat) (hc1 : c < 1) :
    c < costStep t c v := by
  obtain ⟨hp0, _⟩ := pdr_bounds t HP v
  unfold costStep
  nlinarith

theorem costStep_bounds (t : Topology) (HP : pdrBounded t) (c : ℚ) (v : Nat)
    (hc0 : 0 ≤ c) (hc1 : c < 1) : 0 ≤ costStep t c v ∧ costStep t c v < 1 := by
  obtain ⟨hp0, hp1⟩ := pdr_bounds t HP v
  unfold costStep
  constructor <;> nlinarith

theorem costStep_mono (t : Topology) (HP : pdrBounded t) (c1 c2 : ℚ) (v : Nat)
    (h : c1 ≤ c2) : costStep t c1 v ≤ costStep t c2 v := by
  obtain ⟨_, hp1⟩ := pdr_bounds t HP v
  unfold costStep
  nlinarith

theorem costFrom_bounds (t : Topology) (HP : pdrBounded t) (vs : List Nat) :
    ∀ c : ℚ, 0 ≤ c → c < 1 → 0 ≤ costFrom t c vs ∧ costFrom t c vs < 1 := by
  induction vs with
  | nil => intro c h0 h1; exact ⟨h0, h1⟩
  | cons v rest ih =>
    intro c h0 h1
    obtain ⟨g0, g1⟩ := costStep_bounds t HP c v h0 h1
    exact ih (costStep t c v) g0 g1

theorem costFrom_ge (t : Topology) (HP : pdrBounded t) (vs : List Nat) :
    ∀ c : ℚ, 0 ≤ c → c < 1 → c ≤ costFrom t c vs := by
  induction vs with
  | nil => intro c _ _; exact le_refl c
  | cons v rest ih =>
    intro c h0 h1
    obtain ⟨g0, g1⟩ := costStep_bounds t HP c v h0 h1
    exact le_trans (costStep_ge t HP c v (le_of_lt h1)) (ih (costStep t c v) g0 g1)

theorem costFrom_mono (t : Topology) (HP : pdrBounded t) (vs : List Nat) :
    ∀ c1 c2 : ℚ, c1 ≤ c2 → costFrom t c1 vs ≤ costFrom t c2 vs := by
  induction vs with
  | nil => intro c1 c2 h; exact h
  | cons v rest ih =>
    intro c1 c2 h
    exact ih _ _ (costStep_mono t HP c1 c2 v h)

theorem costFrom_append (t : Topology) (c : ℚ) (vs ws : List Nat) :
    costFrom t c (vs ++ ws) = costFrom t (costFrom t c vs) ws := by
  unfold costFrom
  exact List.foldl_append ..

/-! ### Heap-pop facts -/

theorem popBest_none (l : List HState) : popBest l = none ↔ l = [] := by
  cases l with
  | nil => simp [popBest]
  | cons h rest =>
    simp only [popBest]
    constructor
    · intro hc
      exfalso
      cases hr : popBest rest with
      | none => rw [hr] at hc; simp at hc
      | some pr =>
        rw [hr] at hc
        obtain ⟨b, r⟩ := pr
        by_cases hb : popsBefore h b <;> simp [hb] at hc
    · intro hc; exact absurd hc (by simp)

theorem popBest_perm (l : List HState) :
    ∀ e rest, popBest l = some (e, rest) → l.Perm (e :: rest) := by
  induction l with
  | nil => intro e rest h; simp [popBest] at h
  | cons h tl ih =>
    intro e rest hpop
    simp only [popBest] at hpop
    cases hr : popBest tl with
    | none =>
      rw [hr] at hpop
      have htl : tl = [] := (popBest_none tl).mp hr
      simp at hpop
      obtain ⟨he, hrest⟩ := hpop
      subst he; subst hrest; subst htl
      exact List.Perm.refl _
    | some pr =>
      obtain ⟨b, r⟩ := pr
      rw [hr] at hpop
      by_cases hb : popsBefore h b
      · simp [hb] at hpop
        obtain ⟨he, hrest⟩ := hpop
        subst he; subst hrest
        exact List.Perm.refl _
      · simp [hb] at hpop
        obtain ⟨he, hrest⟩ := hpop
        subst hrest
        rw [← he]
        have hperm := ih b r hr
        exact List.Perm.trans (List.Perm.cons h hperm) (List.Perm.swap b h r)

theorem popBest_mem (l : List HState) (e : HState) (rest : List HState)
    (h : popBest l = some (e, rest)) : e ∈ l :=
  (popBest_perm l e rest h).symm.mem_iff.mp (by simp)

theorem popBest_min (l : List HState) :
    ∀ e rest, popBest l = some (e, rest) → ∀ x ∈ l, e.pdr ≤ x.pdr := by
  induction l with
  | nil => intro e rest h; simp [popBest] at h
  | cons h tl ih =>
    intro e rest hpop x hx
    simp only [popBest] at hpop
    cases hr : popBest tl with
    | none =>
      rw [hr] at hpop
      have htl : tl = [] := (popBest_none tl).mp hr
      simp at hpop
      obtain ⟨he, _⟩ := hpop
      subst he; subst htl
      simp at hx
      subst hx
      exact le_refl _
    | some pr =>
      obtain ⟨b, r⟩ := pr
      rw [hr] at hpop
      by_cases hb : popsBefore h b
      · simp [hb] at hpop
        obtain ⟨he, _⟩ := hpop
        subst he
        rcases List.mem_cons.mp hx with h1 | h2
        · subst h1; exact le_refl _
        · have hbx := ih b r hr x h2
          rcases hb with hlt | ⟨heq, _⟩
          · exact le_trans (le_of_lt hlt) hbx
          · exact le_trans (le_of_eq heq) hbx
      · simp [hb] at hpop
        obtain ⟨he, _⟩ := hpop
        rw [← he]
        rcases List.mem_cons.mp hx with h1 | h2
        · subst h1
          unfold popsBefore at hb
          push_neg at hb
          exact hb.1
        · exact ih b r hr x h2

/-! ### The cut argument: the popped key bounds every unsettled walk -/

theorem walk_frontier (t : Topology) (dest : Nat) (S : Nat → Prop) (σ : DijkstraState)
    (HP : pdrBounded t)
    (hS6 : ∀ x, S x → ∃ dx, σ.dist x = some dx ∧
        (∀ y, t.graph x y = true → y < NETWORK_SIZE → t.interiorAdmissible dest y →
          ∃ dy, σ.dist y = some dy ∧ dy ≤ costStep t dx y)) :
    ∀ (rest : List Nat) (x : Nat) (c dx : ℚ) (w : Nat), 0 ≤ c → c < 1 →
      S x → σ.dist x = some dx → dx ≤ c →
      chainAdj t (x :: rest) →
      (∀ v ∈ rest, t.interiorAdmissible dest v) →
      (∀ v ∈ rest, v < NETWORK_SIZE) →
      (x :: rest).getLast? = some w → ¬ S w →
      ∃ y dy, ¬ S y ∧ σ.dist y = some dy ∧ dy ≤ costFrom t c rest := by
  intro rest
  induction rest with
  | nil =>
    intro x c dx w _ _ hx _ _ _ _ _ hlast hw
    simp at hlast
    exact absurd (hlast ▸ hx) hw
  | cons v rest' ih =>
    intro x c dx w hc0 hc1 hx hdx hdxc hchain hadm hlt hlast hw
    obtain ⟨hxv, hchain'⟩ := hchain
    have hvadm : t.interiorAdmissible dest v := hadm v (by simp)
    have hvlt : v < NETWORK_SIZE := hlt v (by simp)
    obtain ⟨dx', hdx', hS6x⟩ := hS6 x hx
    rw [hdx] at hdx'
    obtain rfl : dx = dx' := by injection hdx'
    obtain ⟨dv, hdv, hdvle⟩ := hS6x v hxv hvlt hvadm
    obtain ⟨hcs0, hcs1⟩ := costStep_bounds t HP c v hc0 hc1
    have hdvc : dv ≤ costStep t c v :=
      le_trans hdvle (costStep_mono t HP dx c v hdxc)
    by_cases hvS : S v
    · have hlast' : (v :: rest').getLast? = some w := by
        rw [← hlast]
        exact (List.getLast?_cons_cons ..).symm
      exact ih v (costStep t c v) dv w hcs0 hcs1 hvS hdv hdvc hchain'
        (fun z hz => hadm z (by simp [hz])) (fun z hz => hlt z (by simp [hz])) hlast' hw
    · refine ⟨v, dv, hvS, hdv, ?_⟩
      calc dv ≤ costStep t c v := hdvc
        _ ≤ costFrom t (costStep t c v) rest' := costFrom_ge t HP rest' _ hcs0 hcs1
        _ = costFrom t c (v :: rest') := rfl

theorem pop_key_le (t : Topology) (src dest : Nat) (S : Nat → Prop) (σ : DijkstraState)
    (HP : pdrBounded t)
    (hdist_src : σ.dist src = some 0)
    (hfrontier : ∀ v d, ¬ S v → σ.dist v = some d → (⟨d, v⟩ : HState) ∈ σ.heap)
    (hS6 : ∀ x, S x → ∃ dx, σ.dist x = some dx ∧
        (∀ y, t.graph x y = true → y < NETWORK_SIZE → t.interiorAdmissible dest y →
          ∃ dy, σ.dist y = some dy ∧ dy ≤ costStep t dx y))
    (e : HState) (rest : List HState) (hpop : popBest σ.heap = some (e, rest)) :
    ∀ w, ¬ S w → ∀ π, DWalk t src dest π w → e.pdr ≤ pathCost t π := by
  intro w hw π hπ
  obtain ⟨hhead, hlast, hchain, hadm, hlt⟩ := hπ
  obtain ⟨tl, rfl⟩ : ∃ tl, π = src :: tl := by
    cases π with
    | nil => simp at hhead
    | cons a l =>
      simp at hhead
      exact ⟨l, by rw [hhead]⟩
  have hcost : pathCost t (src :: tl) = costFrom t 0 tl := rfl
  by_cases hs : S src
  · obtain ⟨y, dy, hyS, hydist, hyle⟩ :=
      walk_frontier t dest S σ HP hS6 tl src 0 0 w (le_refl 0) (by norm_num)
        hs hdist_src (le_refl 0) hchain (fun v hv => hadm v (by simpa using hv))
        (fun v hv => hlt v (by simp [hv])) hlast hw
    have hmem := hfrontier y dy hyS hydist
    have hminy := popBest_min σ.heap e rest hpop ⟨dy, y⟩ hmem
    rw [hcost]
    exact le_trans hminy hyle
  · have hmem := hfrontier src 0 hs hdist_src
    have hmin0 := popBest_min σ.heap e rest hpop ⟨0, src⟩ hmem
    have h2 : (0:ℚ) ≤ costFrom t 0 tl :=
      (costFrom_bounds t HP tl 0 (le_refl 0) (by norm_num)).1
    rw [hcost]
    exact le_trans hmin0 h2

/-! ### Reconstruction of the prev chain -/

theorem buildPath_none (prev : Nat → Option Nat) :
    ∀ (n : Nat) (acc : List Nat), buildPath prev n none acc = acc := by
  intro n acc
  cases n <;> rfl

theorem chainAdj_concat (t : Topology) :
    ∀ (A : List Nat) (u v : Nat), chainAdj t A → A.getLast? = some u →
      t.graph u v = true → chainAdj t (A ++ [v]) := by
  intro A
  induction A with
  | nil => intro u v _ hlast _; simp at hlast
  | cons a rest ih =>
    intro u v hchain hlast huv
    cases rest with
    | nil =>
      simp at hlast
      subst hlast
      exact ⟨huv, trivial⟩
    | cons b rest' =>
      obtain ⟨hab, hrest⟩ := hchain
      rw [List.getLast?_cons_cons] at hlast
      exact ⟨hab, ih u v hrest hlast huv⟩

theorem distMeasure_lt (dist : Nat → Option ℚ) (u : Nat) (du dv : ℚ)
    (hu : dist u = some du) (hul : u < NETWORK_SIZE) (hlt : du < dv) :
    distMeasure dist du < distMeasure dist dv := by
  unfold distMeasure
  apply Finset.card_lt_card
  rw [Finset.ssubset_iff_of_subset]
  · refine ⟨u, ?_, ?_⟩
    · rw [Finset.mem_filter]
      exact ⟨Finset.mem_range.mpr hul, by simp [distLT, hu, hlt]⟩
    · rw [Finset.mem_filter]
      rintro ⟨_, habs⟩
      rw [hu] at habs
      exact absurd habs (by simp [distLT])
  · intro w hw
    rw [Finset.mem_filter] at hw ⊢
    refine ⟨hw.1, ?_⟩
    have h2 := hw.2
    cases hwd : dist w with
    | none =>
      rw [hwd] at h2
      exact absurd h2 (by simp [distLT])
    | some d =>
      rw [hwd] at h2
      simp only [distLT] at h2 ⊢
      linarith

theorem buildPath_ok (t : Topology) (src dest : Nat) (S : Nat → Prop) (σ : DijkstraState)
    (HP : pdrBounded t) (inv : DInv t src dest S σ) (hsrc : src < NETWORK_SIZE) :
    ∀ (n : Nat) (v : Nat) (dv : ℚ) (acc : List Nat),
      v < NETWORK_SIZE → σ.dist v = some dv → distMeasure σ.dist dv < n →
      ∃ Pf : List Nat,
        buildPath σ.prev n (some v) acc = acc ++ Pf.reverse ∧
        Pf.head? = some src ∧ Pf.getLast? = some v ∧ chainAdj t Pf ∧
        Pf.Nodup ∧
        (∀ x ∈ Pf, x < NETWORK_SIZE) ∧
        (∀ x ∈ Pf.tail, t.interiorAdmissible dest x ∧ x ≠ src) ∧
        (∀ x ∈ Pf, ∃ dx, σ.dist x = some dx ∧ dx ≤ dv) ∧
        pathCost t Pf ≤ dv := by
  intro n
  induction n with
  | zero => intro v dv acc _ _ hm; exact absurd hm (by omega)
  | succ m ih =>
    intro v dv acc hvlt hdv hm
    cases hp : σ.prev v with
    | none =>
      have hvs : v = src := by
        by_contra hne
        obtain ⟨u, hu⟩ := inv.fin_prev v hne ⟨dv, hdv⟩
        rw [hp] at hu
        exact absurd hu (by simp)
      subst hvs
      have hds := inv.dist_src
      rw [hdv] at hds
      have hdv0 : dv = 0 := Option.some.inj hds
      refine ⟨[v], ?_, rfl, rfl, trivial, by simp, ?_, by simp, ?_, ?_⟩
      · show buildPath σ.prev m (σ.prev v) (acc ++ [v]) = acc ++ [v]
        rw [hp, buildPath_none]
      · intro x hx
        simp at hx
        subst hx
        exact hvlt
      · intro x hx
        simp at hx
        subst hx
        exact ⟨dv, hdv, le_refl dv⟩
      · show costFrom t 0 [] ≤ dv
        rw [hdv0]
        exact le_refl 0
    | some u =>
      obtain ⟨du, dv', hdu, hdv', hgr, hadm, hcs, hdudv, hult, hvlt', hvsrc⟩ :=
        inv.prev_ok v u hp
      rw [hdv] at hdv'
      have hinj : dv = dv' := by injection hdv'
      subst hinj
      have hmlt : distMeasure σ.dist du < m := by
        have h1 := distMeasure_lt σ.dist u du dv hdu hult hdudv
        omega
      obtain ⟨Pf', heq, hhead, hlast, hchain, hnodup, hmem, htail, hdist, hcost⟩ :=
        ih u du (acc ++ [v]) hult hdu hmlt
      have hne : Pf' ≠ [] := by
        intro hc
        rw [hc] at hhead
        exact absurd hhead (by simp)
      refine ⟨Pf' ++ [v], ?_, ?_, List.getLast?_concat Pf', ?_, ?_, ?_, ?_, ?_, ?_⟩
      · show buildPath σ.prev m (σ.prev v) (acc ++ [v]) = acc ++ (Pf' ++ [v]).reverse
        rw [hp, heq]
        simp
      · cases Pf' with
        | nil => exact absurd rfl hne
        | cons a l => simpa using hhead
      · exact chainAdj_concat t Pf' u v hchain hlast hgr
      · have hvnot : v ∉ Pf' := by
          intro hc
          obtain ⟨dx, hdx, hdxle⟩ := hdist v hc
          rw [hdv] at hdx
          have hxeq : dv = dx := by injection hdx
          rw [← hxeq] at hdxle
          linarith
        simp [List.nodup_append, hnodup, hvnot]
      · intro x hx
        rcases List.mem_append.mp hx with h1 | h2
        · exact hmem x h1
        · simp at h2
          subst h2
          exact hvlt
      · intro x hx
        have htl : (Pf' ++ [v]).tail = Pf'.tail ++ [v] := by
          cases Pf' with
          | nil => exact absurd rfl hne
          | cons a l => rfl
        rw [htl] at hx
        rcases List.mem_append.mp hx with h1 | h2
        · exact htail x h1
        · simp at h2
          subst h2
          exact ⟨hadm, hvsrc⟩
      · intro x hx
        rcases List.mem_append.mp hx with h1 | h2
        · obtain ⟨dx, hdx, hdxle⟩ := hdist x h1
          exact ⟨dx, hdx, le_trans hdxle (le_of_lt hdudv)⟩
        · simp at h2
          subst h2
          exact ⟨dv, hdv, le_refl dv⟩
      · have htl : (Pf' ++ [v]).tail = Pf'.tail ++ [v] := by
          cases Pf' with
          | nil => exact absurd rfl hne
          | cons a l => rfl
        unfold pathCost at hcost ⊢
        rw [htl, costFrom_append]
        calc costFrom t (costFrom t 0 Pf'.tail) [v]
            = costStep t (costFrom t 0 Pf'.tail) v := rfl
          _ ≤ costStep t du v := costStep_mono t HP _ du v hcost
          _ ≤ dv := hcs

/-! ### Relaxation preserves the mid-expansion invariant -/

theorem relaxNeighbor_eq (t : Topology) (dest : Nat) (k : ℚ) (u : Nat)
    (σ : DijkstraState) (v : Nat) :
    relaxNeighbor t dest k u σ v =
      if t.interiorAdmissible dest v then
        if improvesDist (costStep t k v) (σ.dist v) then
          ⟨updf σ.dist v (some (costStep t k v)), updf σ.prev v (some u),
           ⟨costStep t k v, v⟩ :: σ.heap⟩
        else σ
      else σ :=
  rfl

theorem improvesDist_some (next d : ℚ) : improvesDist next (some d) = true ↔ next < d := by
  simp [improvesDist]

theorem improvesDist_false (next : ℚ) (o : Option ℚ) (h : improvesDist next o = false) :
    ∃ d, o = some d ∧ d ≤ next := by
  cases o with
  | none => simp [improvesDist] at h
  | some d =>
    refine ⟨d, rfl, ?_⟩
    simp [improvesDist] at h
    exact h

theorem relax_step (t : Topology) (src dest : Nat) (S : Nat → Prop) (u : Nat) (k : ℚ)
    (σ : DijkstraState) (v : Nat) (HP : pdrBounded t)
    (m : MInv t src dest S u k σ) (hvlt : v < NETWORK_SIZE) (hgr : t.graph u v = true) :
    MInv t src dest S u k (relaxNeighbor t dest k u σ v) ∧
    (∀ z dz, σ.dist z = some dz →
      ∃ dz', (relaxNeighbor t dest k u σ v).dist z = some dz' ∧ dz' ≤ dz) ∧
    (t.interiorAdmissible dest v →
      ∃ dv', (relaxNeighbor t dest k u σ v).dist v = some dv' ∧ dv' ≤ costStep t k v) := by
  rw [relaxNeighbor_eq]
  by_cases hadm : t.interiorAdmissible dest v
  · rw [if_pos hadm]
    cases himp : improvesDist (costStep t k v) (σ.dist v) with
    | false =>
      rw [if_neg (by simp [himp])]
      obtain ⟨d, hd, hdle⟩ := improvesDist_false _ _ himp
      exact ⟨m, fun z dz hz => ⟨dz, hz, le_refl dz⟩, fun _ => ⟨d, hd, hdle⟩⟩
    | true =>
      rw [if_pos (by simp [himp])]
      set next := costStep t k v with hnextdef
      obtain ⟨hk0, hk1⟩ := m.k_bounds
      obtain ⟨hn0, hn1⟩ := costStep_bounds t HP k v hk0 hk1
      have hkn : k ≤ next := costStep_ge t HP k v (le_of_lt hk1)
      have hkltn : k < next := costStep_gt t HP k v hk1
      have himp_lt : ∀ dz, σ.dist v = some dz → next < dz := by
        intro dz hz
        rw [hz] at himp
        exact (improvesDist_some next dz).mp himp
      have hvne_u : v ≠ u := by
        intro he
        have := himp_lt k (he ▸ m.dist_u)
        linarith
      have hvne_src : v ≠ src := by
        intro he
        have := himp_lt 0 (he ▸ m.dist_src)
        linarith
      have hvnotS : ¬ S v := by
        intro hS
        obtain ⟨dx, hdx, _, _⟩ := m.settled_lb v hS
        have h1 := m.settled_le_k v dx hS hdx
        have h2 := himp_lt dx hdx
        linarith
      have hnoentry : ∀ e ∈ σ.heap, e.position = v → next < e.pdr := by
        intro e he hpos
        obtain ⟨d, hd, hdle⟩ := m.entry_dist e he
        rw [hpos] at hd
        have := himp_lt d hd
        linarith
      have hd'v : (updf σ.dist v (some next)) v = some next :=
        updf_same σ.dist v (some next)
      have hd'o : ∀ z, z ≠ v → updf σ.dist v (some next) z = σ.dist z :=
        fun z hz => updf_other σ.dist v (some next) z hz
      have hmono : ∀ z dz, σ.dist z = some dz →
          ∃ dz', updf σ.dist v (some next) z = some dz' ∧ dz' ≤ dz := by
        intro z dz hz
        by_cases hzv : z = v
        · subst hzv
          exact ⟨next, hd'v, le_of_lt (himp_lt dz hz)⟩
        · exact ⟨dz, by rw [hd'o z hzv, hz], le_refl dz⟩
      refine ⟨?_, hmono, fun _ => ⟨next, hd'v, le_refl next⟩⟩
      constructor <;> dsimp only
      · rw [hd'o src (fun h => hvne_src h.symm)]; exact m.dist_src
      ·
        rw [updf_other _ _ _ _ (fun h => hvne_src h.symm)]
        exact m.prev_src
      ·
        intro z d hz
        by_cases hzv : z = v
        · subst hzv
          rw [hd'v] at hz
          obtain rfl : next = d := by injection hz
          exact ⟨hn0, hn1⟩
        · rw [hd'o z hzv] at hz
          exact m.dist_bounds z d hz
      ·
        intro w w2 hw
        by_cases hwv : w = v
        · subst hwv
          rw [updf_same] at hw
          obtain rfl : u = w2 := by injection hw
          refine ⟨k, next, ?_, hd'v, hgr, hadm, le_refl next, hkltn, m.u_lt, hvlt, hvne_src⟩
          rw [hd'o u (fun h => hvne_u h.symm)]
          exact m.dist_u
        · rw [updf_other _ _ _ _ hwv] at hw
          obtain ⟨dw2, dw, hdw2, hdw, hg2, ha2, hc2, hlt2, hw2lt, hwlt, hwsrc⟩ :=
            m.prev_ok w w2 hw
          by_cases hw2v : w2 = v
          · subst hw2v
            have hlt3 := himp_lt dw2 hdw2
            refine ⟨next, dw, hd'v, by rw [hd'o w hwv]; exact hdw, hg2, ha2, ?_, ?_,
              hw2lt, hwlt, hwsrc⟩
            · exact le_trans (costStep_mono t HP next dw2 w (le_of_lt hlt3)) hc2
            · linarith
          · refine ⟨dw2, dw, by rw [hd'o w2 hw2v]; exact hdw2,
              by rw [hd'o w hwv]; exact hdw, hg2, ha2, hc2, hlt2, hw2lt, hwlt, hwsrc⟩
      ·
        intro z hz hfin
        by_cases hzv : z = v
        · subst hzv
          exact ⟨u, updf_same ..⟩
        · rw [updf_other _ _ _ _ hzv]
          obtain ⟨d, hd⟩ := hfin
          rw [hd'o z hzv] at hd
          exact m.fin_prev z hz ⟨d, hd⟩
      ·
        intro e he
        rcases List.mem_cons.mp he with h1 | h2
        · subst h1
          exact ⟨next, hd'v, le_refl next⟩
        · obtain ⟨d, hd, hdle⟩ := m.entry_dist e h2
          obtain ⟨d', hd', hle'⟩ := hmono e.position d hd
          exact ⟨d', hd', le_trans hle' hdle⟩
      ·
        intro e he
        rcases List.mem_cons.mp he with h1 | h2
        · subst h1; exact hvlt
        · exact m.entry_pos e h2
      ·
        refine List.Pairwise.cons ?_ m.entry_distinct
        intro e he hpos
        have := hnoentry e he hpos.symm
        intro hc
        rw [← hc] at this
        exact absurd this (lt_irrefl _)
      ·
        intro z d hzS hzu hz
        by_cases hzv : z = v
        · subst hzv
          rw [hd'v] at hz
          obtain rfl : next = d := by injection hz
          exact List.mem_cons_self _ _
        · rw [hd'o z hzv] at hz
          exact List.mem_cons_of_mem _ (m.frontier z d hzS hzu hz)
      ·
        intro x hx
        obtain ⟨dx, hdx, hlb, hS6⟩ := m.settled_lb x hx
        have hxv : x ≠ v := fun h => hvnotS (h ▸ hx)
        refine ⟨dx, by rw [hd'o x hxv]; exact hdx, hlb, ?_⟩
        intro y hgy hylt hyadm
        obtain ⟨dy, hdy, hdyle⟩ := hS6 y hgy hylt hyadm
        obtain ⟨dy', hdy', hle'⟩ := hmono y dy hdy
        exact ⟨dy', hdy', le_trans hle' hdyle⟩
      ·
        intro x dx hx hdx e he hpos
        have hxv : x ≠ v := fun h => hvnotS (h ▸ hx)
        rw [hd'o x hxv] at hdx
        rcases List.mem_cons.mp he with h1 | h2
        · subst h1
          exact absurd hpos.symm hxv
        · exact m.settled_stale x dx hx hdx e h2 hpos
      ·
        intro x dx hx hdx e he
        have hxv : x ≠ v := fun h => hvnotS (h ▸ hx)
        rw [hd'o x hxv] at hdx
        rcases List.mem_cons.mp he with h1 | h2
        · subst h1
          exact le_trans (m.settled_le_k x dx hx hdx) (le_of_lt hkltn)
        · exact m.settled_le x dx hx hdx e h2
      · exact m.dest_free
      · exact m.u_not_settled
      · exact m.u_ne_dest
      · exact m.u_lt
      ·
        rw [hd'o u (fun h => hvne_u h.symm)]
        exact m.dist_u
      · exact m.k_bounds
      ·
        intro x dx hx hdx
        have hxv : x ≠ v := fun h => hvnotS (h ▸ hx)
        rw [hd'o x hxv] at hdx
        exact m.settled_le_k x dx hx hdx
      · exact m.u_lb
      ·
        intro e he hpos
        rcases List.mem_cons.mp he with h1 | h2
        · subst h1
          exact absurd hpos hvne_u
        · exact m.u_stale e h2 hpos
      ·
        intro e he
        rcases List.mem_cons.mp he with h1 | h2
        · subst h1
          exact le_of_lt hkltn
        · exact m.k_le_heap e h2
  · rw [if_neg hadm]
    exact ⟨m, fun z dz hz => ⟨dz, hz, le_refl dz⟩, fun ha => absurd ha hadm⟩

theorem relax_fold (t : Topology) (src dest : Nat) (S : Nat → Prop) (u : Nat) (k : ℚ)
    (HP : pdrBounded t) :
    ∀ (ns : List Nat) (σ : DijkstraState),
    (∀ v ∈ ns, v < NETWORK_SIZE ∧ t.graph u v = true) →
    MInv t src dest S u k σ →
    MInv t src dest S u k (ns.foldl (relaxNeighbor t dest k u) σ) ∧
    (∀ z dz, σ.dist z = some dz →
      ∃ dz', (ns.foldl (relaxNeighbor t dest k u) σ).dist z = some dz' ∧ dz' ≤ dz) ∧
    (∀ v ∈ ns, t.interiorAdmissible dest v →
      ∃ dv', (ns.foldl (relaxNeighbor t dest k u) σ).dist v = some dv' ∧
        dv' ≤ costStep t k v) := by
  intro ns
  induction ns with
  | nil =>
    intro σ _ m
    exact ⟨m, fun z dz hz => ⟨dz, hz, le_refl dz⟩, fun v hv => absurd hv (by simp)⟩
  | cons v rest ih =>
    intro σ hns m
    obtain ⟨hvlt, hgr⟩ := hns v (by simp)
    obtain ⟨m1, mono1, post1⟩ := relax_step t src dest S u k σ v HP m hvlt hgr
    obtain ⟨m2, mono2, post2⟩ :=
      ih (relaxNeighbor t dest k u σ v) (fun z hz => hns z (by simp [hz])) m1
    rw [List.foldl_cons]
    refine ⟨m2, ?_, ?_⟩
    · intro z dz hz
      obtain ⟨dz1, hz1, hle1⟩ := mono1 z dz hz
      obtain ⟨dz2, hz2, hle2⟩ := mono2 z dz1 hz1
      exact ⟨dz2, hz2, le_trans hle2 hle1⟩
    · intro w hw hadm
      rcases List.mem_cons.mp hw with h1 | h2
      · subst h1
        obtain ⟨dv1, hv1, hle1⟩ := post1 hadm
        obtain ⟨dv2, hv2, hle2⟩ := mono2 w dv1 hv1
        exact ⟨dv2, hv2, le_trans hle2 hle1⟩
      · exact post2 w h2 hadm

/-! ### From a popped entry to the mid-expansion invariant -/

theorem staleEntry_true (k : ℚ) (o : Option ℚ) :
    staleEntry k o = true ↔ ∃ d, o = some d ∧ d < k := by
  cases o <;> simp [staleEntry]

theorem staleEntry_false (k : ℚ) (o : Option ℚ) (d : ℚ) (ho : o = some d)
    (h : staleEntry k o = false) : k ≤ d := by
  subst ho
  simp [staleEntry] at h
  exact h

theorem heap_pairwise_perm (l : List HState) (e : HState) (rest : List HState)
    (hperm : l.Perm (e :: rest))
    (hpw : l.Pairwise (fun a b => a.position = b.position → a.pdr ≠ b.pdr)) :
    (e :: rest).Pairwise (fun a b => a.position = b.position → a.pdr ≠ b.pdr) := by
  refine (hperm.pairwise_iff ?_).mp hpw
  intro a b hab hpos
  exact fun h => hab hpos.symm h.symm

theorem pop_establishes_MInv (t : Topology) (src dest : Nat) (S : Nat → Prop)
    (σ : DijkstraState) (HP : pdrBounded t)
    (inv : DInv t src dest S σ) (e : HState) (rest : List HState)
    (hpop : popBest σ.heap = some (e, rest)) (hne : e.position ≠ dest)
    (hnotstale : staleEntry e.pdr (σ.dist e.position) = false) :
    MInv t src dest S e.position e.pdr ⟨σ.dist, σ.prev, rest⟩ := by
  have hperm := popBest_perm σ.heap e rest hpop
  have hmemheap : ∀ x ∈ rest, x ∈ σ.heap := by
    intro x hx
    exact hperm.symm.mem_iff.mp (by simp [hx])
  have hemem := popBest_mem σ.heap e rest hpop
  obtain ⟨d, hd, hdle⟩ := inv.entry_dist e hemem
  have hdk : e.pdr ≤ d := staleEntry_false e.pdr _ d hd hnotstale
  have hdeq : d = e.pdr := le_antisymm (le_antisymm hdle hdk ▸ le_refl d) hdk
  have hdist_u : σ.dist e.position = some e.pdr := by rw [hd, hdeq]
  have hnotS : ¬ S e.position := by
    intro hS
    have hlt := inv.settled_stale e.position d hS hd e hemem rfl
    rw [hdeq] at hlt
    exact lt_irrefl _ hlt
  have hpw := heap_pairwise_perm σ.heap e rest hperm inv.entry_distinct
  constructor
  case dist_src => exact inv.dist_src
  case prev_src => exact inv.prev_src
  case dist_bounds => exact inv.dist_bounds
  case prev_ok => exact inv.prev_ok
  case fin_prev => exact inv.fin_prev
  case entry_dist => exact fun x hx => inv.entry_dist x (hmemheap x hx)
  case entry_pos => exact fun x hx => inv.entry_pos x (hmemheap x hx)
  case entry_distinct => exact List.Pairwise.of_cons hpw
  case frontier =>
    intro z dz hzS hzu hz
    have hw := inv.frontier z dz hzS hz
    have hne2 : (⟨dz, z⟩ : HState) ≠ e := by
      intro hc
      exact hzu (by rw [← hc])
    have := hperm.mem_iff.mp hw
    rcases List.mem_cons.mp this with h1 | h2
    · exact absurd h1 hne2
    · exact h2
  case settled_lb => exact inv.settled_lb
  case settled_stale =>
    intro x dx hx hdx e2 he2 hpos
    exact inv.settled_stale x dx hx hdx e2 (hmemheap e2 he2) hpos
  case settled_le =>
    intro x dx hx hdx e2 he2
    exact inv.settled_le x dx hx hdx e2 (hmemheap e2 he2)
  case dest_free => exact inv.dest_free
  case u_not_settled => exact hnotS
  case u_ne_dest => exact hne
  case u_lt => exact inv.entry_pos e hemem
  case dist_u => exact hdist_u
  case k_bounds =>
    have := inv.dist_bounds e.position d hd
    rw [hdeq] at this
    exact this
  case settled_le_k =>
    intro x dx hx hdx
    exact inv.settled_le x dx hx hdx e hemem
  case u_lb =>
    exact pop_key_le t src dest S σ HP inv.dist_src inv.frontier
      (fun x hx =>
        let r := inv.settled_lb x hx
        ⟨r.choose, r.choose_spec.1, r.choose_spec.2.2⟩)
      e rest hpop e.position hnotS
  case u_stale =>
    intro e2 he2 hpos
    have hrel := (List.pairwise_cons.mp hpw).1 e2 he2
    have hplt := popBest_min σ.heap e rest hpop e2 (hmemheap e2 he2)
    have hneq := hrel hpos.symm
    exact lt_of_le_of_ne hplt hneq
  case k_le_heap =>
    intro e2 he2
    exact popBest_min σ.heap e rest hpop e2 (hmemheap e2 he2)

theorem MInv_to_DInv (t : Topology) (src dest : Nat) (S : Nat → Prop) (u : Nat) (k : ℚ)
    (σ : DijkstraState) (m : MInv t src dest S u k σ)
    (hS6u : ∀ y, t.graph u y = true → y < NETWORK_SIZE → t.interiorAdmissible dest y →
        ∃ dy, σ.dist y = some dy ∧ dy ≤ costStep t k y) :
    DInv t src dest (fun x => S x ∨ x = u) σ := by
  constructor
  case dist_src => exact m.dist_src
  case prev_src => exact m.prev_src
  case dist_bounds => exact m.dist_bounds
  case prev_ok => exact m.prev_ok
  case fin_prev => exact m.fin_prev
  case entry_dist => exact m.entry_dist
  case entry_pos => exact m.entry_pos
  case entry_distinct => exact m.entry_distinct
  case frontier =>
    intro v d hv hd
    push_neg at hv
    exact m.frontier v d hv.1 hv.2 hd
  case settled_lb =>
    intro x hx
    rcases hx with h1 | h2
    · exact m.settled_lb x h1
    · subst h2
      exact ⟨k, m.dist_u, m.u_lb, hS6u⟩
  case settled_stale =>
    intro x dx hx hdx e he hpos
    rcases hx with h1 | h2
    · exact m.settled_stale x dx h1 hdx e he hpos
    · subst h2
      have hinj : dx = k := by
        have := m.dist_u
        rw [hdx] at this
        injection this
      subst hinj
      exact m.u_stale e he hpos
  case settled_le =>
    intro x dx hx hdx e he
    rcases hx with h1 | h2
    · exact m.settled_le x dx h1 hdx e he
    · subst h2
      have hinj : dx = k := by
        have := m.dist_u
        rw [hdx] at this
        injection this
      subst hinj
      exact m.k_le_heap e he
  case dest_free =>
    rintro (h1 | h2)
    · exact m.dest_free h1
    · exact m.u_ne_dest (by rw [← h2]) |>.elim

theorem stale_pop_DInv (t : Topology) (src dest : Nat) (S : Nat → Prop)
    (σ : DijkstraState) (inv : DInv t src dest S σ) (e : HState) (rest : List HState)
    (hpop : popBest σ.heap = some (e, rest))
    (hstale : staleEntry e.pdr (σ.dist e.position) = true) :
    DInv t src dest S ⟨σ.dist, σ.prev, rest⟩ := by
  have hperm := popBest_perm σ.heap e rest hpop
  have hmemheap : ∀ x ∈ rest, x ∈ σ.heap := by
    intro x hx
    exact hperm.symm.mem_iff.mp (by simp [hx])
  obtain ⟨dd, hdd, hddlt⟩ := (staleEntry_true e.pdr _).mp hstale
  have hpw := heap_pairwise_perm σ.heap e rest hperm inv.entry_distinct
  constructor
  case dist_src => exact inv.dist_src
  case prev_src => exact inv.prev_src
  case dist_bounds => exact inv.dist_bounds
  case prev_ok => exact inv.prev_ok
  case fin_prev => exact inv.fin_prev
  case entry_dist => exact fun x hx => inv.entry_dist x (hmemheap x hx)
  case entry_pos => exact fun x hx => inv.entry_pos x (hmemheap x hx)
  case entry_distinct => exact List.Pairwise.of_cons hpw
  case frontier =>
    intro z dz hzS hz
    have hw := inv.frontier z dz hzS hz
    have hne2 : (⟨dz, z⟩ : HState) ≠ e := by
      intro hc
      have hzpos : z = e.position := by rw [← hc]
      have hzpdr : dz = e.pdr := by rw [← hc]
      rw [hzpos, hdd] at hz
      have hinj : dd = dz := by injection hz
      rw [hinj, hzpdr] at hddlt
      exact lt_irrefl _ hddlt
    have := hperm.mem_iff.mp hw
    rcases List.mem_cons.mp this with h1 | h2
    · exact absurd h1 hne2
    · exact h2
  case settled_lb => exact inv.settled_lb
  case settled_stale =>
    intro x dx hx hdx e2 he2 hpos
    exact inv.settled_stale x dx hx hdx e2 (hmemheap e2 he2) hpos
  case settled_le =>
    intro x dx hx hdx e2 he2
    exact inv.settled_le x dx hx hdx e2 (hmemheap e2 he2)
  case dest_free => exact inv.dest_free

theorem distMeasure_lt_network (dist : Nat → Option ℚ) (d : ℚ) (w : Nat)
    (hw : w < NETWORK_SIZE) (hwd : dist w = some d) :
    distMeasure dist d < NETWORK_SIZE := by
  unfold distMeasure
  have hsub : (Finset.range NETWORK_SIZE).filter (fun z => distLT (dist z) d)
      ⊆ (Finset.range NETWORK_SIZE).erase w := by
    intro z hz
    rw [Finset.mem_filter] at hz
    rw [Finset.mem_erase]
    refine ⟨?_, hz.1⟩
    intro hc
    subst hc
    rw [hwd] at hz
    exact absurd hz.2 (by simp [distLT])
  have hN : NETWORK_SIZE = 256 := rfl
  calc ((Finset.range NETWORK_SIZE).filter (fun z => distLT (dist z) d)).card
      ≤ ((Finset.range NETWORK_SIZE).erase w).card := Finset.card_le_card hsub
    _ = NETWORK_SIZE - 1 := by
        rw [Finset.card_erase_of_mem (Finset.mem_range.mpr hw), Finset.card_range]
    _ < NETWORK_SIZE := by omega

theorem neighborList_mem (t : Topology) (u v : Nat) :
    v ∈ neighborList t u ↔ v < NETWORK_SIZE ∧ t.graph u v = true := by
  unfold neighborList
  rw [List.mem_filter, List.mem_range]

theorem dijkstraLoop_ok (t : Topology) (src dest : Nat) (HP : pdrBounded t)
    (hsrc : src < NETWORK_SIZE) (hdest : dest < NETWORK_SIZE) :
    ∀ (fuel : Nat) (σ : DijkstraState) (S : Nat → Prop) (path : List Nat),
      DInv t src dest S σ →
      dijkstraLoop t dest fuel σ = .ok path →
      path.head? = some src ∧ path.getLast? = some dest ∧ chainAdj t path ∧
      path.Nodup ∧ (∀ v ∈ path, v < NETWORK_SIZE) ∧
      (∀ v ∈ path.tail, t.interiorAdmissible dest v ∧ v ≠ src) ∧
      (∀ π, DWalk t src dest π dest → pathCost t path ≤ pathCost t π) := by
  intro fuel
  induction fuel with
  | zero =>
    intro σ S path _ hok
    exact absurd hok (by simp [dijkstraLoop])
  | succ m ih =>
    intro σ S path inv hok
    simp only [dijkstraLoop] at hok
    cases hpop : popBest σ.heap with
    | none =>
      rw [hpop] at hok
      exact absurd hok (by simp)
    | some pr =>
      obtain ⟨e, rest⟩ := pr
      rw [hpop] at hok
      simp only [] at hok
      by_cases hdst : e.position = dest
      · rw [if_pos hdst] at hok
        have hpath : path = (buildPath σ.prev NETWORK_SIZE (some dest) []).reverse := by
          have := Except.ok.inj hok
          exact this.symm
        obtain ⟨d, hd, hdle⟩ := inv.entry_dist e (popBest_mem _ _ _ hpop)
        rw [hdst] at hd
        have hmsr := distMeasure_lt_network σ.dist d dest hdest hd
        obtain ⟨Pf, heq, hhead, hlast, hchain, hnodup, hmem, htail, hdistf, hcost⟩ :=
          buildPath_ok t src dest S σ HP inv hsrc NETWORK_SIZE dest d [] hdest hd hmsr
        have hpatheq : path = Pf := by
          rw [hpath, heq]
          simp
        subst hpatheq
        refine ⟨hhead, hlast, hchain, hnodup, hmem, htail, ?_⟩
        intro π hπ
        have hπle := pop_key_le t src dest S σ HP inv.dist_src inv.frontier
          (fun x hx =>
            let r := inv.settled_lb x hx
            ⟨r.choose, r.choose_spec.1, r.choose_spec.2.2⟩)
          e rest hpop dest inv.dest_free π hπ
        calc pathCost t path ≤ d := hcost
          _ ≤ e.pdr := hdle
          _ ≤ pathCost t π := hπle
      · rw [if_neg hdst] at hok
        cases hstale : staleEntry e.pdr (σ.dist e.position) with
        | true =>
          rw [hstale] at hok
          simp only [if_true] at hok
          exact ih ⟨σ.dist, σ.prev, rest⟩ S path
            (stale_pop_DInv t src dest S σ inv e rest hpop hstale) hok
        | false =>
          rw [hstale] at hok
          simp only [Bool.false_eq_true, if_false] at hok
          have hm := pop_establishes_MInv t src dest S σ HP inv e rest hpop hdst hstale
          obtain ⟨hmfin, hmono, hpost⟩ :=
            relax_fold t src dest S e.position e.pdr HP (neighborList t e.position)
              ⟨σ.dist, σ.prev, rest⟩
              (fun v hv => (neighborList_mem t e.position v).mp hv) hm
          have hinv2 := MInv_to_DInv t src dest S e.position e.pdr _ hmfin
            (fun y hgy hylt hyadm =>
              hpost y ((neighborList_mem t e.position y).mpr ⟨hylt, hgy⟩) hyadm)
          exact ih _ (fun x => S x ∨ x = e.position) path hinv2 hok

theorem dijkstra_initial_DInv (t : Topology) (src dest : Nat) (hsrc : src < NETWORK_SIZE) :
    DInv t src dest (fun _ => False)
      ⟨updf (fun _ => none) src (some 0), fun _ => none, [⟨0, src⟩]⟩ := by
  constructor <;> dsimp only
  case dist_src => exact updf_same ..
  case dist_bounds =>
    intro v d hv
    by_cases hvs : v = src
    · subst hvs
      rw [updf_same] at hv
      have : (0:ℚ) = d := by injection hv
      subst this
      norm_num
    · rw [updf_other _ _ _ _ hvs] at hv
      exact absurd hv (by simp)
  case prev_ok =>
    intro v u hv
    exact absurd hv (by simp)
  case fin_prev =>
    intro v hvs hfin
    obtain ⟨d, hd⟩ := hfin
    rw [updf_other _ _ _ _ hvs] at hd
    exact absurd hd (by simp)
  case entry_dist =>
    intro e he
    simp at he
    subst he
    exact ⟨0, updf_same .., le_refl 0⟩
  case entry_pos =>
    intro e he
    simp at he
    subst he
    exact hsrc
  case entry_distinct => simp
  case frontier =>
    intro v d _ hv
    by_cases hvs : v = src
    · subst hvs
      rw [updf_same] at hv
      have : (0:ℚ) = d := by injection hv
      subst this
      simp
    · rw [updf_other _ _ _ _ hvs] at hv
      exact absurd hv (by simp)
  case settled_lb => intro x hx; exact absurd hx (by simp)
  case settled_stale => intro x dx hx; exact absurd hx (by simp)
  case settled_le => intro x dx hx; exact absurd hx (by simp)
  case dest_free => exact fun h => h

theorem dijkstra_ok_main (t : Topology) (fuel src dest : Nat) (path : List Nat)
    (HP : pdrBounded t) (hsrc : src < NETWORK_SIZE) (hdest : dest < NETWORK_SIZE)
    (hok : t.dijkstra fuel src dest = .ok path) :
    path.head? = some src ∧ path.getLast? = some dest ∧ chainAdj t path ∧
    path.Nodup ∧ (∀ v ∈ path, v < NETWORK_SIZE) ∧
    (∀ v ∈ path.tail, t.interiorAdmissible dest v ∧ v ≠ src) ∧
    (∀ π, DWalk t src dest π dest → pathCost t path ≤ pathCost t π) := by
  unfold Topology.dijkstra at hok
  by_cases hsd : src = dest
  · rw [if_pos hsd] at hok
    exact absurd hok (by simp)
  · rw [if_neg hsd] at hok
    exact dijkstraLoop_ok t src dest HP hsrc hdest fuel _ (fun _ => False) path
      (dijkstra_initial_DInv t src dest hsrc) hok

theorem tail_dropLast_ne_last (l : List Nat) (a dest : Nat)
    (hnodup : (a :: l).Nodup) (hlast : (a :: l).getLast? = some dest) :
    ∀ v ∈ l.dropLast, v ≠ dest := by
  intro v hv hc
  subst hc
  cases hne : l with
  | nil =>
    subst hne
    simp at hv
  | cons b l2 =>
    subst hne
    have hlne : (b :: l2) ≠ [] := by simp
    have hlast2 : (b :: l2).getLast hlne = v := by
      have h1 : (a :: b :: l2).getLast? = some ((b :: l2).getLast hlne) := by
        rw [List.getLast?_cons_cons]
        exact List.getLast?_eq_getLast _ hlne
      rw [h1] at hlast
      injection hlast with h2
    have hdecomp : (b :: l2).dropLast ++ [v] = b :: l2 := by
      rw [← hlast2]
      exact List.dropLast_append_getLast hlne
    have hnodup2 : (b :: l2).Nodup := (List.nodup_cons.mp hnodup).2
    rw [← hdecomp] at hnodup2
    have := (List.nodup_append.mp hnodup2).2.2
    exact this hv (by simp)

theorem ValidPath_DWalk (t : Topology) (src dest : Nat) (π : List Nat)
    (h : ValidPath t src dest π) : DWalk t src dest π dest := by
  obtain ⟨hhead, hlast, hlen, hchain, hint, hlt⟩ := h
  refine ⟨hhead, hlast, hchain, ?_, hlt⟩
  intro v hv
  cases hπ : π with
  | nil => subst hπ; simp at hhead
  | cons a l =>
    subst hπ
    simp only [List.tail_cons] at hv hint
    cases hl : l with
    | nil =>
      subst hl
      simp at hv
    | cons b l2 =>
      subst hl
      have hlne : (b :: l2) ≠ [] := by simp
      have hlast2 : (b :: l2).getLast hlne = dest := by
        have h1 : (a :: b :: l2).getLast? = some ((b :: l2).getLast hlne) := by
          rw [List.getLast?_cons_cons]
          exact List.getLast?_eq_getLast _ hlne
        rw [h1] at hlast
        injection hlast with h2
      have hdecomp : (b :: l2).dropLast ++ [dest] = b :: l2 := by
        rw [← hlast2]
        exact List.dropLast_append_getLast hlne
      rw [← hdecomp] at hv
      rcases List.mem_append.mp hv with h1 | h2
      · exact Or.inr (hint v h1)
      · simp at h2
        subst h2
        exact Or.inl rfl

/-- Claim C4: every path returned by `dijkstra(source, dest)` (a) starts at
`source`, (b) ends at `dest`, (c) has only nodes of recorded kind `Drone`
as interior hops, and (d) has every adjacent pair of nodes adjacent in the
topology's bit-matrix graph.  Stated for every fuel bound and every topology
with positive observation counters (all reachable topologies), for node ids
within the network's 256 slots. -/
theorem C4_routing_correctness (t : Topology) (fuel src dest : Nat) (path : List Nat)
    (HP : pdrBounded t) (hsrc : src < NETWORK_SIZE) (hdest : dest < NETWORK_SIZE)
    (hok : t.dijkstra fuel src dest = .ok path) :
    path.head? = some src ∧ path.getLast? = some dest ∧ chainAdj t path ∧
    ∀ v ∈ path.tail.dropLast, t.types v = NodeType.Drone := by
  obtain ⟨hhead, hlast, hchain, hnodup, hmem, htail, _⟩ :=
    dijkstra_ok_main t fuel src dest path HP hsrc hdest hok
  refine ⟨hhead, hlast, hchain, ?_⟩
  intro v hv
  cases hπ : path with
  | nil => subst hπ; simp at hhead
  | cons a l =>
    subst hπ
    simp only [List.tail_cons] at hv htail
    have hvtail : v ∈ l := List.dropLast_subset l hv
    have hadm := (htail v hvtail).1
    rcases hadm with h1 | h2
    · exact absurd h1 (tail_dropLast_ne_last l a dest hnodup hlast v hv)
    · exact h2

/-- Claim C3 (amended, positive part): under exact rational evaluation of
the routine's arithmetic, whenever `dijkstra(source, dest)` returns a path,
that path's accumulated drop cost — computed by the spec's recursion
`cost(prefix . v) = cost(prefix) + (1 - cost(prefix)) * p(v)` with
`p(v) = failure(v) / (success(v) + failure(v))` — is minimal among all
source-to-destination paths in the current topology whose interior nodes all
have recorded kind `Drone`.  Stated for every fuel bound and every topology
with positive observation counters (all reachable topologies).  The program
evaluates the same recursion in `f64`, which realises this minimality only
up to floating-point rounding: the counterexample below runs the bit-exact
`f64` model on reachable counters and obtains a returned path that is
exactly suboptimal, so exact minimality as originally claimed is false of
the program and this theorem carries the exact-arithmetic part of the
amended claim. -/
theorem C3_routing_optimality (t : Topology) (fuel src dest : Nat) (path : List Nat)
    (HP : pdrBounded t) (hsrc : src < NETWORK_SIZE) (hdest : dest < NETWORK_SIZE)
    (hok : t.dijkstra fuel src dest = .ok path) :
    ∀ π, ValidPath t src dest π → pathCost t path ≤ pathCost t π := by
  obtain ⟨_, _, _, _, _, _, hopt⟩ :=
    dijkstra_ok_main t fuel src dest path HP hsrc hdest hok
  intro π hπ
  exact hopt π (ValidPath_DWalk t src dest π hπ)

set_option maxRecDepth 100000 in
theorem C4_witness :
    T0.dijkstra 2 0 3 = Except.ok [0, 3] ∧
    (([0, 3] : List Nat).head? = some 0 ∧ ([0, 3] : List Nat).getLast? = some 3 ∧
      chainAdj T0 [0, 3] ∧
      ∀ v ∈ ([0, 3] : List Nat).tail.dropLast, T0.types v = NodeType.Drone) :=
  have hP : pdrBounded T0 := fun _ =>
    ⟨by show (0:ℚ) < 1; norm_num, by show (0:ℚ) < 1; norm_num⟩
  have hok : T0.dijkstra 2 0 3 = Except.ok [0, 3] := by rfl
  ⟨hok, C4_routing_correctness T0 2 0 3 [0, 3] hP (by decide) (by decide) hok⟩

set_option maxRecDepth 100000 in
theorem C3_witness :
    T0.dijkstra 2 0 3 = Except.ok [0, 3] ∧
    ∀ π, ValidPath T0 0 3 π → pathCost T0 [0, 3] ≤ pathCost T0 π :=
  have hP : pdrBounded T0 := fun _ =>
    ⟨by show (0:ℚ) < 1; norm_num, by show (0:ℚ) < 1; norm_num⟩
  have hok : T0.dijkstra 2 0 3 = Except.ok [0, 3] := by rfl
  ⟨hok, C3_routing_optimality T0 2 0 3 [0, 3] hP (by decide) (by decide) hok⟩

set_option maxRecDepth 1000000 in
set_option maxHeartbeats 8000000 in
/-- Claim C3 (counterexample): the original claim — the path returned by
`dijkstra` has minimal accumulated drop cost per the spec's exact recursion
— fails for the `f64` program.  On a reachable topology (two disjoint drone
chains from client 0 to server 9, every counter grown from the initial
`{1, 1}` by single observations), the bit-exact `f64` evaluation of
`dijkstra` returns the chain through nodes 11–17, although the chain
through nodes 1–7 is also valid and has strictly smaller exact cost: the
two exact costs differ by about `1e-17`, below one unit in the last place
of the computed costs, the `f64` cost accumulations of the two chains
collide bit for bit, and the heap's position tie-break makes the relaxation
through node 17 reach the destination first, so the exactly-worse chain is
returned. -/
theorem C3_counterexample :
    TF0.dijkstra 64 0 9 = Except.ok [0, 11, 12, 13, 14, 15, 16, 17, 9] ∧
    ValidPathF TF0 0 9 [0, 1, 2, 3, 4, 5, 6, 7, 9] ∧
    specPathCost TF0 [0, 1, 2, 3, 4, 5, 6, 7, 9] <
      specPathCost TF0 [0, 11, 12, 13, 14, 15, 16, 17, 9] := by
  refine ⟨by rfl, by decide, ?_⟩
  have h1 : TF0.trend 1 = (2, 27) := by rfl
  have h2 : TF0.trend 2 = (3, 28) := by rfl
  have h3 : TF0.trend 3 = (1, 31) := by rfl
  have h4 : TF0.trend 4 = (1, 30) := by rfl
  have h5 : TF0.trend 5 = (1, 13) := by rfl
  have h6 : TF0.trend 6 = (3, 26) := by rfl
  have h7 : TF0.trend 7 = (1, 13) := by rfl
  have h9 : TF0.trend 9 = (1, 1) := by rfl
  have h11 : TF0.trend 11 = (2, 23) := by rfl
  have h12 : TF0.trend 12 = (2, 16) := by rfl
  have h13 : TF0.trend 13 = (1, 25) := by rfl
  have h14 : TF0.trend 14 = (1, 25) := by rfl
  have h15 : TF0.trend 15 = (1, 13) := by rfl
  have h16 : TF0.trend 16 = (1, 22) := by rfl
  have h17 : TF0.trend 17 = (2, 21) := by rfl
  simp only [specPathCost, List.tail_cons, List.foldl_cons, List.foldl_nil,
    specCostStep, specPdr, h1, h2, h3, h4, h5, h6, h7, h9, h11, h12, h13, h14,
    h15, h16, h17]
  norm_num
